import Mathlib

/-!
Shallow embedding of the in-memory search engine of `src/search-server/main.cpp`
(with the earlier variant `src/unnamed/part_000` as a second reading of
`FindAllDocuments`): tokenizer, stop words, inverted index with term
frequencies, query parser, TF-IDF ranker and per-document matcher.

Modelling choices:
* `std::map<int, T>` values are association lists `List (Int × T)` kept sorted
  by key; `std::map<std::string, std::map<int, double>>` is a total function
  `String → List (Int × ℚ)` (an absent word maps to `[]`; the C++ code never
  iterates over the word keys, so the key set need not be materialised).
* term frequencies are exact rationals (`double` read in exact arithmetic);
  relevance is a real number computed with the real logarithm.
* `std::sort` is modelled as an insertion sort with the source comparator
  (`std::sort`'s contract fixes the order only up to the comparator, and for a
  strict weak order any conforming sort yields a comparator-sorted list).
* `documents_.at(id)` (which throws on a missing key) is modelled with a
  default value where the C++ invariant guarantees the key is present, and by
  `Option` in `MatchDocument`, whose not-found throw is observable behaviour.
-/

namespace CppSearchServer

/-- Key-ordered insert-or-add on a sorted association list: the model of
`m[k] += v` on a `std::map` (`operator[]` value-initialises the mapped value
to zero, then `+=` adds `v`). -/
def addTo {α : Type} [Add α] : List (Int × α) → Int → α → List (Int × α)
  | [], k, v => [(k, v)]
  | (k', v') :: rest, k, v =>
    if k < k' then (k, v) :: (k', v') :: rest
    else if k = k' then (k', v' + v) :: rest
    else (k', v') :: addTo rest k v

/-- Key-ordered insert-if-absent: the model of `std::map::emplace`, which is a
no-op when the key already exists. -/
def emplace {α : Type} : List (Int × α) → Int → α → List (Int × α)
  | [], k, v => [(k, v)]
  | (k', v') :: rest, k, v =>
    if k < k' then (k, v) :: (k', v') :: rest
    else if k = k' then (k', v') :: rest
    else (k', v') :: emplace rest k v

/-- Removal of a key: the model of `std::map::erase(k)`. -/
def eraseKey {α : Type} : List (Int × α) → Int → List (Int × α)
  | [], _ => []
  | (k', v') :: rest, k =>
    if k = k' then rest else (k', v') :: eraseKey rest k

/-- Lookup: the model of `std::map::count`/`std::map::at` on the integer maps. -/
def find? {α : Type} : List (Int × α) → Int → Option α
  | [], _ => none
  | (k', v') :: rest, k => if k = k' then some v' else find? rest k

/-- `SplitIntoWords`, accumulator form: builds the current word in reverse. -/
def splitAux : List Char → List Char → List String
  | [], acc => if acc = [] then [] else [String.mk acc.reverse]
  | c :: rest, acc =>
    if c = ' ' then
      if acc = [] then splitAux rest []
      else String.mk acc.reverse :: splitAux rest []
    else splitAux rest (c :: acc)

/-- `SplitIntoWords`: split on the ASCII space character, dropping empty
words (consecutive, leading and trailing spaces produce nothing). -/
def SplitIntoWords (text : String) : List String :=
  splitAux text.data []

/-- Result record of the search: `struct Document`. -/
structure Document where
  id : Int
  relevance : ℝ
  rating : Int

/-- `enum class DocumentStatus`. -/
inductive DocumentStatus where
  | ACTUAL
  | IRRELEVANT
  | BANNED
  | REMOVED
deriving DecidableEq, BEq

/-- Per-document metadata: `struct DocumentData`. -/
structure DocumentData where
  rating : Int
  status : DocumentStatus
deriving DecidableEq

/-- Fallback used to model `documents_.at(id)` at call sites where the C++
invariant guarantees presence of the key (so the fallback is never read on
states reachable by the public interface). -/
def defaultData : DocumentData := ⟨0, DocumentStatus.ACTUAL⟩

/-- The engine state: `class SearchServer`'s three data members. -/
structure SearchServer where
  stop_words : List String
  word_to_document_freqs : String → List (Int × ℚ)
  documents : List (Int × DocumentData)

/-- A freshly constructed `SearchServer`. -/
def emptyServer : SearchServer :=
  { stop_words := [], word_to_document_freqs := fun _ => [], documents := [] }

/-- Insertion into a `std::set` modelled on a duplicate-free list: a no-op
when the element is already present. -/
def sinsert (l : List String) (w : String) : List String :=
  if w ∈ l then l else l ++ [w]

/-- `SearchServer::SetStopWords`. -/
def SetStopWords (s : SearchServer) (text : String) : SearchServer :=
  { s with stop_words := (SplitIntoWords text).foldl sinsert s.stop_words }

/-- `SearchServer::IsStopWord`. -/
def IsStopWord (s : SearchServer) (word : String) : Bool :=
  s.stop_words.contains word

/-- `SearchServer::SplitIntoWordsNoStop`. -/
def SplitIntoWordsNoStop (s : SearchServer) (text : String) : List String :=
  (SplitIntoWords text).filter (fun word => !IsStopWord s word)

/-- `SearchServer::ComputeAverageRating`: 0 on an empty list, otherwise the
sum (`std::accumulate` from 0) divided by the size with C-style integer
division; `Int.tdiv` is exactly that truncation toward zero. -/
def ComputeAverageRating (ratings : List Int) : Int :=
  if ratings = [] then 0
  else Int.tdiv (ratings.foldl (· + ·) 0) (ratings.length : Int)

/-- `SearchServer::AddDocument`: tokenize without stop words, add
`1/words.size()` to the word's entry for this id once per occurrence, and
`emplace` the metadata (silently kept unchanged if the id already exists —
the reference code performs no duplicate check). -/
def AddDocument (s : SearchServer) (document_id : Int) (document : String)
    (status : DocumentStatus) (ratings : List Int) : SearchServer :=
  let words := SplitIntoWordsNoStop s document
  let inv_word_count : ℚ := 1 / (words.length : ℚ)
  { s with
    word_to_document_freqs :=
      words.foldl
        (fun freqs word => fun w =>
          if w = word then addTo (freqs word) document_id inv_word_count
          else freqs w)
        s.word_to_document_freqs,
    documents :=
      emplace s.documents document_id
        ⟨ComputeAverageRating ratings, status⟩ }

/-- `SearchServer::GetDocumentCount` (the size of `documents_`). -/
def GetDocumentCount (s : SearchServer) : ℕ :=
  s.documents.length

/-- `struct QueryWord`. -/
structure QueryWord where
  data : String
  is_minus : Bool
  is_stop : Bool

/-- `SearchServer::ParseQueryWord`: strip a leading `-`, and classify. -/
def ParseQueryWord (s : SearchServer) (text : String) : QueryWord :=
  match text.data with
  | '-' :: rest =>
    { data := String.mk rest, is_minus := true, is_stop := IsStopWord s (String.mk rest) }
  | _ => { data := text, is_minus := false, is_stop := IsStopWord s text }

/-- `struct Query`: the two `std::set<std::string>` members, modelled as
duplicate-free lists. -/
structure Query where
  plus_words : List String
  minus_words : List String
deriving DecidableEq

/-- `SearchServer::ParseQuery`. -/
def ParseQuery (s : SearchServer) (text : String) : Query :=
  (SplitIntoWords text).foldl
    (fun query word =>
      let query_word := ParseQueryWord s word
      if query_word.is_stop then query
      else if query_word.is_minus then
        { query with minus_words := sinsert query.minus_words query_word.data }
      else
        { query with plus_words := sinsert query.plus_words query_word.data })
    ⟨[], []⟩

/-- `SearchServer::ComputeWordInverseDocumentFreq`:
`log(GetDocumentCount() * 1.0 / word_to_document_freqs_.at(word).size())`. -/
noncomputable def ComputeWordInverseDocumentFreq (s : SearchServer) (word : String) : ℝ :=
  Real.log ((GetDocumentCount s : ℝ) / ((s.word_to_document_freqs word).length : ℝ))

/-- Body of the inner loop over `word_to_document_freqs_.at(word)` in
`FindAllDocuments`: accumulate `term_freq * inverse_document_freq` for the
entry's document if it passes the predicate (the document data is read with
`documents_.at`, whose key is always present on reachable states). -/
noncomputable def entryStep (s : SearchServer)
    (pred : Int → DocumentStatus → Int → Bool) (inverse_document_freq : ℝ)
    (acc : List (Int × ℝ)) (entry : Int × ℚ) : List (Int × ℝ) :=
  let document_data := (find? s.documents entry.1).getD defaultData
  if pred entry.1 document_data.status document_data.rating then
    addTo acc entry.1 ((entry.2 : ℝ) * inverse_document_freq)
  else acc

/-- Body of the plus-word loop of `FindAllDocuments`: skip a word absent from
the index, otherwise accumulate every one of its entries. -/
noncomputable def plusStep (s : SearchServer)
    (pred : Int → DocumentStatus → Int → Bool)
    (document_to_relevance : List (Int × ℝ)) (word : String) : List (Int × ℝ) :=
  if (s.word_to_document_freqs word).isEmpty then document_to_relevance
  else
    (s.word_to_document_freqs word).foldl
      (entryStep s pred (ComputeWordInverseDocumentFreq s word))
      document_to_relevance

/-- Body of the minus-word loop of `FindAllDocuments`: skip a word absent
from the index, otherwise erase every document id listed under it. -/
def minusStep (s : SearchServer)
    (document_to_relevance : List (Int × ℝ)) (word : String) : List (Int × ℝ) :=
  if (s.word_to_document_freqs word).isEmpty then document_to_relevance
  else
    (s.word_to_document_freqs word).foldl
      (fun acc entry => eraseKey acc entry.1)
      document_to_relevance

/-- Materialisation of one relevance-map entry into a result `Document`
(`documents_.at(document_id).rating`; key present on reachable states). -/
def toDocument (s : SearchServer) (entry : Int × ℝ) : Document :=
  { id := entry.1, relevance := entry.2,
    rating := ((find? s.documents entry.1).getD defaultData).rating }

/-- `SearchServer::FindAllDocuments`: accumulate `tf * idf` per plus word for
documents passing the predicate, then erase every id matched by a minus word,
then materialise the relevance map (in ascending id order, as `std::map`
iteration does). -/
noncomputable def FindAllDocuments (s : SearchServer) (query : Query)
    (pred : Int → DocumentStatus → Int → Bool) : List Document :=
  let step1 : List (Int × ℝ) := query.plus_words.foldl (plusStep s pred) []
  let step2 : List (Int × ℝ) := query.minus_words.foldl (minusStep s) step1
  step2.map (toDocument s)

/-- `MAX_RESULT_DOCUMENT_COUNT`. -/
def MAX_RESULT_DOCUMENT_COUNT : ℕ := 5

/-- `ERROR_RATE`, the tie-break epsilon of the sort comparator. -/
noncomputable def ERROR_RATE : ℝ := 1e-6

/-- The comparator passed to `std::sort` in `FindTopDocuments`: rating
descending when the relevances differ by less than `ERROR_RATE`, otherwise
relevance descending. -/
noncomputable def docBefore (lhs rhs : Document) : Prop :=
  if |lhs.relevance - rhs.relevance| < ERROR_RATE then lhs.rating > rhs.rating
  else lhs.relevance > rhs.relevance

noncomputable instance : DecidableRel docBefore := fun lhs rhs => by
  unfold docBefore
  infer_instance

/-- Sorted insertion of one element with respect to a comparator. -/
def insertSorted {α : Type} (cmp : α → α → Prop) [DecidableRel cmp] (x : α) :
    List α → List α
  | [] => [x]
  | y :: ys => if cmp x y then x :: y :: ys else y :: insertSorted cmp x ys

/-- Insertion sort: the model of `std::sort` with comparator `cmp` (any
conforming `std::sort` produces a list whose adjacent pairs respect the
comparator, which is the property the claims are about). -/
def sortCpp {α : Type} (cmp : α → α → Prop) [DecidableRel cmp] : List α → List α
  | [] => []
  | x :: xs => insertSorted cmp x (sortCpp cmp xs)

/-- `SearchServer::FindTopDocuments` (predicate overload): rank all matching
documents and keep at most `MAX_RESULT_DOCUMENT_COUNT` of them. -/
noncomputable def FindTopDocuments (s : SearchServer) (raw_query : String)
    (pred : Int → DocumentStatus → Int → Bool) : List Document :=
  let query := ParseQuery s raw_query
  let matched_documents := FindAllDocuments s query pred
  (sortCpp docBefore matched_documents).take MAX_RESULT_DOCUMENT_COUNT

/-- `SearchServer::FindTopDocuments` (status overload): filter with
`doc_status == status`. -/
noncomputable def FindTopDocumentsWithStatus (s : SearchServer) (raw_query : String)
    (status : DocumentStatus) : List Document :=
  FindTopDocuments s raw_query
    (fun _document_id doc_status _rating => doc_status == status)

/-- `SearchServer::FindTopDocuments` (default overload): status `ACTUAL`. -/
noncomputable def FindTopDocumentsDefault (s : SearchServer) (raw_query : String) :
    List Document :=
  FindTopDocumentsWithStatus s raw_query DocumentStatus.ACTUAL

/-- `SearchServer::MatchDocument`: collect the plus words holding an entry
for the document, clear the list if any minus word holds one, and pair with
the document's status; `documents_.at(document_id)` throws when the id is
unknown, modelled by `none`. -/
def MatchDocument (s : SearchServer) (raw_query : String) (document_id : Int) :
    Option (List String × DocumentStatus) :=
  let query := ParseQuery s raw_query
  let matched_words : List String :=
    query.plus_words.foldl
      (fun acc word =>
        if (s.word_to_document_freqs word).isEmpty then acc
        else if (find? (s.word_to_document_freqs word) document_id).isSome then
          acc ++ [word]
        else acc)
      []
  let cleared : List String :=
    if query.minus_words.any (fun word =>
        !(s.word_to_document_freqs word).isEmpty &&
          (find? (s.word_to_document_freqs word) document_id).isSome) then []
    else matched_words
  match find? s.documents document_id with
  | none => none
  | some document_data => some (cleared, document_data.status)

/-- Sortedness (strictly increasing keys) of an association-list map; this is
the `std::map` representation invariant. -/
def KeySorted {α : Type} (m : List (Int × α)) : Prop :=
  List.Pairwise (fun a b => a.1 < b.1) m

/-- Well-formedness of a server state, as maintained by the C++ class: every
per-word document map is key-sorted and every id appearing in the inverted
index is a key of `documents_`. -/
def WF (s : SearchServer) : Prop :=
  (∀ w, KeySorted (s.word_to_document_freqs w)) ∧
  (∀ w p, p ∈ s.word_to_document_freqs w → (find? s.documents p.1).isSome)

/-- The mutating operations of the public interface (the queries are pure
functions and do not change the state). -/
inductive Op where
  | setStop (text : String)
  | add (id : Int) (text : String) (status : DocumentStatus) (ratings : List Int)

/-- Interpretation of one operation. -/
def applyOp (s : SearchServer) : Op → SearchServer
  | Op.setStop text => SetStopWords s text
  | Op.add id text status ratings => AddDocument s id text status ratings

/-- Interpretation of a sequence of operations. -/
def runOps (s : SearchServer) (ops : List Op) : SearchServer :=
  ops.foldl applyOp s

/-- Whether an operation is an `AddDocument` for the given id. -/
def Op.addsId : Op → Int → Prop
  | Op.setStop _, _ => False
  | Op.add id' _ _ _, id => id' = id

/-- The sum of the term frequencies stored for document `id` under the given
words (each distinct word counted once). -/
def tfSum (s : SearchServer) (ws : List String) (id : Int) : ℚ :=
  (ws.dedup.map (fun w => ((find? (s.word_to_document_freqs w) id).getD 0))).sum

/-- The value of the ranking predicate on a document id (the predicate is
always applied to the id together with the status and rating stored for it). -/
def passes (s : SearchServer) (pred : Int → DocumentStatus → Int → Bool) (id : Int) : Bool :=
  let document_data := (find? s.documents id).getD defaultData
  pred id document_data.status document_data.rating

/-- The TF-IDF contribution of one query word to one document: zero when the
word has no entry for the document (in particular when the word is absent
from the index altogether). -/
noncomputable def contrib (s : SearchServer) (word : String) (id : Int) : ℝ :=
  match find? (s.word_to_document_freqs word) id with
  | some tf => (tf : ℝ) * ComputeWordInverseDocumentFreq s word
  | none => 0

/-- The total TF-IDF relevance of a document for a list of query words. -/
noncomputable def relevanceOf (s : SearchServer) (ws : List String) (id : Int) : ℝ :=
  (ws.map (fun w => contrib s w id)).sum

/-- The accept-all predicate. -/
def acceptAll : Int → DocumentStatus → Int → Bool := fun _ _ _ => true

/-- Whether the status stored for a document id equals the given status
(the test performed by the status overload of `FindTopDocuments`). -/
def statusKey (s : SearchServer) (status : DocumentStatus) : Int → Bool :=
  fun id => ((find? s.documents id).getD defaultData).status == status

/-- One-document corpus used as a concrete instance. -/
def ex1 : SearchServer := AddDocument emptyServer 0 "a" DocumentStatus.ACTUAL []

/-- One-document corpus with two words, used as a concrete instance. -/
def ex9 : SearchServer := AddDocument emptyServer 0 "a b" DocumentStatus.ACTUAL [1]

/-- Six-document corpus: five `ACTUAL` documents with ratings 10 down to 6
and one `BANNED` document with rating 5, all with the single word `a`. -/
def ex7 : SearchServer :=
  AddDocument (AddDocument (AddDocument (AddDocument (AddDocument (AddDocument
    emptyServer 0 "a" DocumentStatus.ACTUAL [10]) 1 "a" DocumentStatus.ACTUAL [9])
    2 "a" DocumentStatus.ACTUAL [8]) 3 "a" DocumentStatus.ACTUAL [7])
    4 "a" DocumentStatus.ACTUAL [6]) 5 "a" DocumentStatus.BANNED [5]

/-! ### Lemmas about the association-list map operations -/

theorem find?_some_mem {α : Type} {m : List (Int × α)} {k : Int} {v : α}
    (h : find? m k = some v) : (k, v) ∈ m := by
  induction m with
  | nil => simp [find?] at h
  | cons a rest ih =>
    obtain ⟨k', v'⟩ := a
    rw [find?] at h
    by_cases hk : k = k'
    · rw [if_pos hk] at h
      have hv : v' = v := Option.some.inj h
      subst hv
      subst hk
      exact List.mem_cons_self _ _
    · rw [if_neg hk] at h
      exact List.mem_cons_of_mem _ (ih h)

theorem mem_find?_isSome {α : Type} {m : List (Int × α)} {p : Int × α}
    (h : p ∈ m) : (find? m p.1).isSome := by
  induction m with
  | nil => simp at h
  | cons a rest ih =>
    obtain ⟨k', v'⟩ := a
    rcases List.mem_cons.mp h with h' | h'
    · subst h'; simp [find?]
    · by_cases hk : p.1 = k' <;> simp [find?, hk, ih h']

theorem find?_eq_none_of_lt {α : Type} {m : List (Int × α)} {k : Int}
    (h : ∀ p ∈ m, k < p.1) : find? m k = none := by
  induction m with
  | nil => rfl
  | cons a rest ih =>
    obtain ⟨k', v'⟩ := a
    have hk : k ≠ k' := ne_of_lt (h (k', v') (List.mem_cons_self _ _))
    rw [find?, if_neg hk]
    exact ih fun p hp => h p (List.mem_cons_of_mem _ hp)

theorem mem_addTo {α : Type} [Add α] {m : List (Int × α)} {k : Int} {v : α}
    {p : Int × α} (h : p ∈ addTo m k v) : p.1 = k ∨ p ∈ m := by
  induction m with
  | nil =>
    rw [addTo] at h
    rcases List.mem_singleton.mp h with rfl
    exact Or.inl rfl
  | cons a rest ih =>
    obtain ⟨k', v'⟩ := a
    rw [addTo] at h
    by_cases h1 : k < k'
    · rw [if_pos h1] at h
      rcases List.mem_cons.mp h with rfl | h'
      · exact Or.inl rfl
      · exact Or.inr h'
    · rw [if_neg h1] at h
      by_cases h2 : k = k'
      · rw [if_pos h2] at h
        rcases List.mem_cons.mp h with rfl | h'
        · exact Or.inl h2.symm
        · exact Or.inr (List.mem_cons_of_mem _ h')
      · rw [if_neg h2] at h
        rcases List.mem_cons.mp h with rfl | h'
        · exact Or.inr (List.mem_cons_self _ _)
        · rcases ih h' with h'' | h''
          · exact Or.inl h''
          · exact Or.inr (List.mem_cons_of_mem _ h'')

theorem keySorted_addTo {α : Type} [Add α] {m : List (Int × α)} (k : Int) (v : α)
    (h : KeySorted m) : KeySorted (addTo m k v) := by
  induction m with
  | nil => simp [addTo, KeySorted]
  | cons a rest ih =>
    obtain ⟨k', v'⟩ := a
    rcases List.pairwise_cons.mp h with ⟨hhead, hrest⟩
    rw [addTo]
    by_cases h1 : k < k'
    · rw [if_pos h1]
      refine List.pairwise_cons.mpr ⟨?_, h⟩
      intro b hb
      rcases List.mem_cons.mp hb with rfl | hb'
      · exact h1
      · exact lt_trans h1 (hhead b hb')
    · rw [if_neg h1]
      by_cases h2 : k = k'
      · rw [if_pos h2]
        exact List.pairwise_cons.mpr ⟨hhead, hrest⟩
      · rw [if_neg h2]
        refine List.pairwise_cons.mpr ⟨?_, ih hrest⟩
        intro b hb
        rcases mem_addTo hb with hb' | hb'
        · rw [hb']
          rcases lt_trichotomy k k' with h' | h' | h'
          · exact absurd h' h1
          · exact absurd h' h2
          · exact h'
        · exact hhead b hb'

theorem find?_addTo_ne {α : Type} [Add α] {m : List (Int × α)} {k : Int} (v : α)
    {id : Int} (h : k ≠ id) : find? (addTo m k v) id = find? m id := by
  have hik : ¬id = k := fun hh => h hh.symm
  induction m with
  | nil => simp [addTo, find?, hik]
  | cons a rest ih =>
    obtain ⟨k', v'⟩ := a
    rw [addTo]
    by_cases h1 : k < k'
    · rw [if_pos h1]
      simp only [find?]
      rw [if_neg hik]
    · rw [if_neg h1]
      by_cases h2 : k = k'
      · rw [if_pos h2]
        simp only [find?]
        rw [if_neg (h2 ▸ hik), if_neg (h2 ▸ hik)]
      · rw [if_neg h2]
        simp only [find?]
        by_cases h3 : id = k'
        · rw [if_pos h3, if_pos h3]
        · rw [if_neg h3, if_neg h3, ih]

theorem find?_addTo_self {α : Type} [AddZeroClass α] {m : List (Int × α)}
    {k : Int} (v : α) (h : KeySorted m) :
    find? (addTo m k v) k = some ((find? m k).getD 0 + v) := by
  induction m with
  | nil => simp [addTo, find?]
  | cons a rest ih =>
    obtain ⟨k', v'⟩ := a
    rcases List.pairwise_cons.mp h with ⟨hhead, hrest⟩
    rw [addTo]
    by_cases h1 : k < k'
    · rw [if_pos h1, find?, if_pos rfl]
      have hnone : find? ((k', v') :: rest) k = none := by
        refine find?_eq_none_of_lt ?_
        intro p hp
        rcases List.mem_cons.mp hp with rfl | hp'
        · exact h1
        · exact lt_trans h1 (hhead p hp')
      rw [hnone]
      simp
    · rw [if_neg h1]
      by_cases h2 : k = k'
      · subst h2
        rw [find?, if_pos rfl, find?, if_pos rfl]
        simp
      · rw [if_neg h2, find?, if_neg h2, find?, if_neg h2]
        exact ih hrest

theorem find?_eraseKey_ne {α : Type} {m : List (Int × α)} {k id : Int}
    (h : k ≠ id) : find? (eraseKey m k) id = find? m id := by
  induction m with
  | nil => rfl
  | cons a rest ih =>
    obtain ⟨k', v'⟩ := a
    rw [eraseKey]
    by_cases h1 : k = k'
    · rw [if_pos h1]
      have h3 : ¬id = k' := fun hh => h (h1.trans hh.symm)
      conv_rhs => rw [find?]
      rw [if_neg h3]
    · rw [if_neg h1]
      simp only [find?]
      by_cases h2 : id = k'
      · rw [if_pos h2, if_pos h2]
      · rw [if_neg h2, if_neg h2, ih]

theorem find?_eraseKey_self {α : Type} {m : List (Int × α)} {k : Int}
    (h : KeySorted m) : find? (eraseKey m k) k = none := by
  induction m with
  | nil => rfl
  | cons a rest ih =>
    obtain ⟨k', v'⟩ := a
    rcases List.pairwise_cons.mp h with ⟨hhead, hrest⟩
    rw [eraseKey]
    by_cases h1 : k = k'
    · rw [if_pos h1]
      exact find?_eq_none_of_lt fun p hp => h1 ▸ hhead p hp
    · rw [if_neg h1]
      simp only [find?]
      rw [if_neg h1]
      exact ih hrest

theorem find?_eraseKey_none {α : Type} {m : List (Int × α)} {k id : Int}
    (h : find? m id = none) : find? (eraseKey m k) id = none := by
  induction m with
  | nil => rfl
  | cons a rest ih =>
    obtain ⟨k', v'⟩ := a
    rw [find?] at h
    by_cases h2 : id = k'
    · rw [if_pos h2] at h
      exact absurd h (by simp)
    · rw [if_neg h2] at h
      rw [eraseKey]
      by_cases h1 : k = k'
      · rw [if_pos h1]
        exact h
      · rw [if_neg h1, find?, if_neg h2]
        exact ih h

theorem mem_eraseKey {α : Type} {m : List (Int × α)} {k : Int} {p : Int × α}
    (h : p ∈ eraseKey m k) : p ∈ m := by
  induction m with
  | nil => simp [eraseKey] at h
  | cons a rest ih =>
    obtain ⟨k', v'⟩ := a
    rw [eraseKey] at h
    by_cases h1 : k = k'
    · rw [if_pos h1] at h
      exact List.mem_cons_of_mem _ h
    · rw [if_neg h1] at h
      rcases List.mem_cons.mp h with rfl | h'
      · exact List.mem_cons_self _ _
      · exact List.mem_cons_of_mem _ (ih h')

theorem keySorted_eraseKey {α : Type} {m : List (Int × α)} (k : Int)
    (h : KeySorted m) : KeySorted (eraseKey m k) := by
  induction m with
  | nil => exact h
  | cons a rest ih =>
    obtain ⟨k', v'⟩ := a
    rcases List.pairwise_cons.mp h with ⟨hhead, hrest⟩
    rw [eraseKey]
    by_cases h1 : k = k'
    · rw [if_pos h1]
      exact hrest
    · rw [if_neg h1]
      refine List.pairwise_cons.mpr ⟨?_, ih hrest⟩
      intro b hb
      exact hhead b (mem_eraseKey hb)

theorem eraseKey_of_forall_ne {α : Type} {m : List (Int × α)} {k : Int}
    (h : ∀ p ∈ m, p.1 ≠ k) : eraseKey m k = m := by
  induction m with
  | nil => rfl
  | cons a rest ih =>
    obtain ⟨k', v'⟩ := a
    rw [eraseKey, if_neg (fun hh : k = k' =>
      h (k', v') (List.mem_cons_self _ _) hh.symm)]
    rw [ih fun p hp => h p (List.mem_cons_of_mem _ hp)]

theorem find?_emplace_ne {α : Type} {m : List (Int × α)} {k : Int} (v : α)
    {id : Int} (h : k ≠ id) : find? (emplace m k v) id = find? m id := by
  have hik : ¬id = k := fun hh => h hh.symm
  induction m with
  | nil => simp [emplace, find?, hik]
  | cons a rest ih =>
    obtain ⟨k', v'⟩ := a
    rw [emplace]
    by_cases h1 : k < k'
    · rw [if_pos h1]
      simp only [find?]
      rw [if_neg hik]
    · rw [if_neg h1]
      by_cases h2 : k = k'
      · rw [if_pos h2]
      · rw [if_neg h2]
        simp only [find?]
        by_cases h3 : id = k'
        · rw [if_pos h3, if_pos h3]
        · rw [if_neg h3, if_neg h3, ih]

theorem find?_emplace_self_of_none {α : Type} {m : List (Int × α)} {k : Int}
    (v : α) (h : find? m k = none) : find? (emplace m k v) k = some v := by
  induction m with
  | nil => simp [emplace, find?]
  | cons a rest ih =>
    obtain ⟨k', v'⟩ := a
    rw [find?] at h
    by_cases h2 : k = k'
    · rw [if_pos h2] at h
      exact absurd h (by simp)
    · rw [if_neg h2] at h
      rw [emplace]
      by_cases h1 : k < k'
      · rw [if_pos h1, find?, if_pos rfl]
      · rw [if_neg h1, if_neg h2, find?, if_neg h2]
        exact ih h

theorem find?_emplace_self_isSome {α : Type} (m : List (Int × α)) (k : Int)
    (v : α) : (find? (emplace m k v) k).isSome := by
  induction m with
  | nil => simp [emplace, find?]
  | cons a rest ih =>
    obtain ⟨k', v'⟩ := a
    rw [emplace]
    by_cases h1 : k < k'
    · rw [if_pos h1, find?, if_pos rfl]
      rfl
    · rw [if_neg h1]
      by_cases h2 : k = k'
      · rw [if_pos h2, find?, if_pos h2]
        rfl
      · rw [if_neg h2, find?, if_neg h2]
        exact ih

theorem addTo_of_forall_lt {α : Type} [Add α] {m : List (Int × α)} {k : Int}
    (v : α) (h : ∀ p ∈ m, k < p.1) : addTo m k v = (k, v) :: m := by
  cases m with
  | nil => rfl
  | cons a rest =>
    obtain ⟨k', v'⟩ := a
    rw [addTo, if_pos (h (k', v') (List.mem_cons_self _ _))]

theorem keySorted_filter {α : Type} (f : Int × α → Bool) {m : List (Int × α)}
    (h : KeySorted m) : KeySorted (m.filter f) :=
  List.Pairwise.sublist (List.filter_sublist _) h

theorem filter_addTo {α : Type} [Add α] (p : Int → Bool) {m : List (Int × α)}
    (k : Int) (v : α) (hs : KeySorted m) :
    (addTo m k v).filter (fun e => p e.1) =
      if p k then addTo (m.filter (fun e => p e.1)) k v
      else m.filter (fun e => p e.1) := by
  induction m with
  | nil =>
    by_cases hp : p k <;> simp [addTo, hp]
  | cons a rest ih =>
    obtain ⟨k', v'⟩ := a
    rcases List.pairwise_cons.mp hs with ⟨hhead, hrest⟩
    rw [addTo]
    by_cases h1 : k < k'
    · rw [if_pos h1]
      by_cases hp : p k
      · rw [if_pos hp, List.filter_cons_of_pos (by simpa using hp)]
        rw [addTo_of_forall_lt v (fun q hq => ?_)]
        rcases List.mem_cons.mp (List.mem_of_mem_filter hq) with rfl | hq'
        · exact h1
        · exact lt_trans h1 (hhead q hq')
      · rw [if_neg hp, List.filter_cons_of_neg (by simpa using hp)]
    · rw [if_neg h1]
      by_cases h2 : k = k'
      · rw [if_pos h2]
        subst h2
        by_cases hp : p k
        · rw [if_pos hp, List.filter_cons_of_pos (by simpa using hp),
            List.filter_cons_of_pos (by simpa using hp), addTo,
            if_neg (lt_irrefl k), if_pos rfl]
        · rw [if_neg hp, List.filter_cons_of_neg (by simpa using hp),
            List.filter_cons_of_neg (by simpa using hp)]
      · rw [if_neg h2]
        by_cases hp : p k
        · rw [if_pos hp]
          by_cases hp' : p k'
          · rw [List.filter_cons_of_pos (by simpa using hp'),
              List.filter_cons_of_pos (by simpa using hp'), ih hrest, if_pos hp,
              addTo, if_neg h1, if_neg h2]
          · rw [List.filter_cons_of_neg (by simpa using hp'),
              List.filter_cons_of_neg (by simpa using hp'), ih hrest, if_pos hp]
        · rw [if_neg hp]
          by_cases hp' : p k'
          · rw [List.filter_cons_of_pos (by simpa using hp'),
              List.filter_cons_of_pos (by simpa using hp'), ih hrest, if_neg hp]
          · rw [List.filter_cons_of_neg (by simpa using hp'),
              List.filter_cons_of_neg (by simpa using hp'), ih hrest, if_neg hp]

theorem filter_eraseKey {α : Type} (p : Int → Bool) {m : List (Int × α)}
    (k : Int) (hs : KeySorted m) :
    (eraseKey m k).filter (fun e => p e.1) =
      eraseKey (m.filter (fun e => p e.1)) k := by
  induction m with
  | nil => rfl
  | cons a rest ih =>
    obtain ⟨k', v'⟩ := a
    rcases List.pairwise_cons.mp hs with ⟨hhead, hrest⟩
    rw [eraseKey]
    by_cases h1 : k = k'
    · rw [if_pos h1]
      by_cases hp' : p k'
      · rw [List.filter_cons_of_pos (by simpa using hp'), eraseKey, if_pos h1]
      · rw [List.filter_cons_of_neg (by simpa using hp'),
          eraseKey_of_forall_ne (fun q hq => ?_)]
        have := hhead q (List.mem_of_mem_filter hq)
        exact fun hqk => absurd (hqk.trans h1) (ne_of_gt this)
    · rw [if_neg h1]
      by_cases hp' : p k'
      · rw [List.filter_cons_of_pos (by simpa using hp'),
          List.filter_cons_of_pos (by simpa using hp'), ih hrest, eraseKey,
          if_neg h1]
      · rw [List.filter_cons_of_neg (by simpa using hp'),
          List.filter_cons_of_neg (by simpa using hp'), ih hrest]

/-! ### Lemmas about the insertion-sort model of `std::sort` -/

theorem insertSorted_perm {α : Type} (cmp : α → α → Prop) [DecidableRel cmp]
    (x : α) (l : List α) : (insertSorted cmp x l).Perm (x :: l) := by
  induction l with
  | nil => exact List.Perm.refl _
  | cons y ys ih =>
    rw [insertSorted]
    by_cases h : cmp x y
    · rw [if_pos h]
    · rw [if_neg h]
      exact (List.Perm.cons y ih).trans (List.Perm.swap x y ys)

theorem sortCpp_perm {α : Type} (cmp : α → α → Prop) [DecidableRel cmp]
    (l : List α) : (sortCpp cmp l).Perm l := by
  induction l with
  | nil => exact List.Perm.refl _
  | cons x xs ih =>
    rw [sortCpp]
    exact (insertSorted_perm cmp x (sortCpp cmp xs)).trans (List.Perm.cons x ih)

theorem insertSorted_chain {α : Type} {cmp : α → α → Prop} [DecidableRel cmp]
    (hasym : ∀ a b, cmp a b → ¬cmp b a) (x : α) {l : List α}
    (h : List.Chain' (fun a b => ¬cmp b a) l) :
    List.Chain' (fun a b => ¬cmp b a) (insertSorted cmp x l) := by
  induction l with
  | nil => simp [insertSorted]
  | cons y ys ih =>
    rw [insertSorted]
    by_cases hc : cmp x y
    · rw [if_pos hc]
      exact List.Chain'.cons (hasym x y hc) h
    · rw [if_neg hc]
      have hys : List.Chain' (fun a b => ¬cmp b a) ys := h.tail
      have hins := ih hys
      cases hy : insertSorted cmp x ys with
      | nil => simp
      | cons z zs =>
        rw [hy] at hins
        refine List.Chain'.cons ?_ hins
        rcases ys with _ | ⟨w, ws⟩
        · rw [insertSorted] at hy
          injection hy with h1 h2
          rw [← h1]
          exact hc
        · rw [insertSorted] at hy
          by_cases hcw : cmp x w
          · rw [if_pos hcw] at hy
            injection hy with h1 h2
            rw [← h1]
            exact hc
          · rw [if_neg hcw] at hy
            injection hy with h1 h2
            rw [← h1]
            rcases List.chain'_cons.mp h with ⟨hyw, _⟩
            exact hyw

theorem sortCpp_chain {α : Type} {cmp : α → α → Prop} [DecidableRel cmp]
    (hasym : ∀ a b, cmp a b → ¬cmp b a) (l : List α) :
    List.Chain' (fun a b => ¬cmp b a) (sortCpp cmp l) := by
  induction l with
  | nil => simp [sortCpp]
  | cons x xs ih =>
    rw [sortCpp]
    exact insertSorted_chain hasym x ih

theorem chain'_take {α : Type} {R : α → α → Prop} {l : List α}
    (h : List.Chain' R l) (n : ℕ) : List.Chain' R (l.take n) :=
  h.prefix (List.take_prefix n l)

theorem docBefore_asymm : ∀ a b : Document, docBefore a b → ¬docBefore b a := by
  intro a b h
  unfold docBefore at h ⊢
  by_cases hc : |a.relevance - b.relevance| < ERROR_RATE
  · rw [if_pos hc] at h
    rw [if_pos (by rwa [abs_sub_comm])]
    exact not_lt_of_gt h
  · rw [if_neg hc] at h
    rw [if_neg (by rwa [abs_sub_comm] at hc)]
    exact not_lt_of_gt h

theorem errorRate_pos : (0 : ℝ) < ERROR_RATE := by
  unfold ERROR_RATE
  norm_num

/-- C5: for every query and filter, the list returned by `FindTopDocuments`
is sorted so that for every adjacent pair either the earlier document's
relevance strictly exceeds the later one's, or the two relevances differ by
less than the epsilon `ERROR_RATE` (1e-6) and the earlier document's rating
is at least the later one's. -/
theorem c5_result_sorted (s : SearchServer) (rq : String)
    (pred : Int → DocumentStatus → Int → Bool) :
    List.Chain'
      (fun a b => a.relevance > b.relevance ∨
        (|a.relevance - b.relevance| < ERROR_RATE ∧ a.rating ≥ b.rating))
      (FindTopDocuments s rq pred) := by
  unfold FindTopDocuments
  refine chain'_take ?_ _
  have h := sortCpp_chain docBefore_asymm (FindAllDocuments s (ParseQuery s rq) pred)
  refine List.Chain'.imp ?_ h
  intro a b hab
  unfold docBefore at hab
  by_cases hc : |b.relevance - a.relevance| < ERROR_RATE
  · rw [if_pos hc] at hab
    right
    exact ⟨by rwa [abs_sub_comm], le_of_not_lt hab⟩
  · rw [if_neg hc] at hab
    left
    rcases lt_or_eq_of_le (le_of_not_lt hab) with h' | h'
    · exact h'
    · exact absurd (by rw [h', sub_self, abs_zero]; exact errorRate_pos) hc

/-- C6: for every query, filter and corpus state, the list returned by
`FindTopDocuments` has at most `MAX_RESULT_DOCUMENT_COUNT = 5` elements. -/
theorem c6_result_length (s : SearchServer) (rq : String)
    (pred : Int → DocumentStatus → Int → Bool) :
    (FindTopDocuments s rq pred).length ≤ MAX_RESULT_DOCUMENT_COUNT := by
  unfold FindTopDocuments
  exact List.length_take_le _ _

/-! ### Characterisation of the relevance map built by `FindAllDocuments` -/

theorem find?_eq_none_forall_ne {α : Type} {m : List (Int × α)} {id : Int}
    (h : find? m id = none) : ∀ p ∈ m, p.1 ≠ id := by
  intro p hp hpk
  have := mem_find?_isSome hp
  rw [hpk, h] at this
  exact absurd this (by simp)

theorem find?_of_mem_keySorted {α : Type} {m : List (Int × α)}
    (hs : KeySorted m) {p : Int × α} (hp : p ∈ m) : find? m p.1 = some p.2 := by
  induction m with
  | nil => simp at hp
  | cons a rest ih =>
    obtain ⟨k', v'⟩ := a
    rcases List.pairwise_cons.mp hs with ⟨hhead, hrest⟩
    rcases List.mem_cons.mp hp with rfl | hp'
    · rw [find?, if_pos rfl]
    · have : k' < p.1 := hhead p hp'
      rw [find?, if_neg (ne_of_gt this), ih hrest hp']

theorem entryFold_find?_of_forall_ne (s : SearchServer)
    (pred : Int → DocumentStatus → Int → Bool) (idf : ℝ)
    {entries : List (Int × ℚ)} (acc : List (Int × ℝ)) {id : Int}
    (h : ∀ e ∈ entries, e.1 ≠ id) :
    find? (entries.foldl (entryStep s pred idf) acc) id = find? acc id := by
  induction entries generalizing acc with
  | nil => rfl
  | cons e rest ih =>
    rw [List.foldl_cons]
    rw [ih _ (fun e' he' => h e' (List.mem_cons_of_mem _ he'))]
    unfold entryStep
    by_cases hp : pred e.1 ((find? s.documents e.1).getD defaultData).status
        ((find? s.documents e.1).getD defaultData).rating
    · rw [if_pos hp]
      exact find?_addTo_ne _ (h e (List.mem_cons_self _ _))
    · rw [if_neg hp]

theorem entryFold_find?_of_not_passes (s : SearchServer)
    (pred : Int → DocumentStatus → Int → Bool) (idf : ℝ)
    {entries : List (Int × ℚ)} (acc : List (Int × ℝ)) {id : Int}
    (h : passes s pred id = false) :
    find? (entries.foldl (entryStep s pred idf) acc) id = find? acc id := by
  induction entries generalizing acc with
  | nil => rfl
  | cons e rest ih =>
    rw [List.foldl_cons, ih]
    unfold entryStep
    by_cases hk : e.1 = id
    · rw [hk]
      unfold passes at h
      simp only at h
      rw [if_neg (by rw [h]; exact Bool.false_ne_true)]
    · by_cases hp : pred e.1 ((find? s.documents e.1).getD defaultData).status
          ((find? s.documents e.1).getD defaultData).rating
      · rw [if_pos hp]
        exact find?_addTo_ne _ hk
      · rw [if_neg hp]

theorem keySorted_entryFold (s : SearchServer)
    (pred : Int → DocumentStatus → Int → Bool) (idf : ℝ)
    {entries : List (Int × ℚ)} {acc : List (Int × ℝ)} (h : KeySorted acc) :
    KeySorted (entries.foldl (entryStep s pred idf) acc) := by
  induction entries generalizing acc with
  | nil => exact h
  | cons e rest ih =>
    rw [List.foldl_cons]
    refine ih ?_
    unfold entryStep
    by_cases hp : pred e.1 ((find? s.documents e.1).getD defaultData).status
        ((find? s.documents e.1).getD defaultData).rating
    · rw [if_pos hp]
      exact keySorted_addTo _ _ h
    · rw [if_neg hp]
      exact h

theorem entryFold_find?_of_mem (s : SearchServer)
    (pred : Int → DocumentStatus → Int → Bool) (idf : ℝ)
    {entries : List (Int × ℚ)} {id : Int} {tf : ℚ}
    (hs : KeySorted entries) (hmem : (id, tf) ∈ entries)
    (hp : passes s pred id = true) (acc : List (Int × ℝ)) (hacc : KeySorted acc) :
    find? (entries.foldl (entryStep s pred idf) acc) id =
      some ((find? acc id).getD 0 + (tf : ℝ) * idf) := by
  induction entries generalizing acc with
  | nil => simp at hmem
  | cons e rest ih =>
    rcases List.pairwise_cons.mp hs with ⟨hhead, hrest⟩
    rw [List.foldl_cons]
    by_cases hk : e.1 = id
    · have he : e = (id, tf) := by
        rcases List.mem_cons.mp hmem with rfl | hmem'
        · rfl
        · have hlt : e.1 < id := hhead (id, tf) hmem'
          exact absurd (hk ▸ hlt) (lt_irrefl id)
      subst he
      rw [entryFold_find?_of_forall_ne s pred idf _
        (fun e' he' => ne_of_gt (hhead e' he'))]
      unfold entryStep
      unfold passes at hp
      simp only at hp
      rw [if_pos hp]
      exact find?_addTo_self _ hacc
    · have hmem' : (id, tf) ∈ rest := by
        rcases List.mem_cons.mp hmem with rfl | hmem'
        · exact absurd rfl hk
        · exact hmem'
      have hstep : find? (entryStep s pred idf acc e) id = find? acc id := by
        unfold entryStep
        by_cases hpe : pred e.1 ((find? s.documents e.1).getD defaultData).status
            ((find? s.documents e.1).getD defaultData).rating
        · rw [if_pos hpe]
          exact find?_addTo_ne _ hk
        · rw [if_neg hpe]
      have hsorted : KeySorted (entryStep s pred idf acc e) := by
        unfold entryStep
        by_cases hpe : pred e.1 ((find? s.documents e.1).getD defaultData).status
            ((find? s.documents e.1).getD defaultData).rating
        · rw [if_pos hpe]
          exact keySorted_addTo _ _ hacc
        · rw [if_neg hpe]
          exact hacc
      rw [ih hrest hmem' _ hsorted, hstep]

theorem relevanceOf_cons (s : SearchServer) (w : String) (ws : List String)
    (id : Int) :
    relevanceOf s (w :: ws) id = contrib s w id + relevanceOf s ws id := by
  unfold relevanceOf
  rw [List.map_cons, List.sum_cons]

theorem relevanceOf_eq_zero (s : SearchServer) {ws : List String} {id : Int}
    (h : ∀ w ∈ ws, find? (s.word_to_document_freqs w) id = none) :
    relevanceOf s ws id = 0 := by
  unfold relevanceOf
  refine List.sum_eq_zero ?_
  intro x hx
  rcases List.mem_map.mp hx with ⟨w, hw, rfl⟩
  unfold contrib
  rw [h w hw]

theorem contrib_of_some {s : SearchServer} {w : String} {id : Int} {tf : ℚ}
    (h : find? (s.word_to_document_freqs w) id = some tf) :
    contrib s w id = (tf : ℝ) * ComputeWordInverseDocumentFreq s w := by
  unfold contrib
  rw [h]

theorem contrib_of_none {s : SearchServer} {w : String} {id : Int}
    (h : find? (s.word_to_document_freqs w) id = none) :
    contrib s w id = 0 := by
  unfold contrib
  rw [h]

theorem keySorted_plusStep (s : SearchServer)
    (pred : Int → DocumentStatus → Int → Bool) {acc : List (Int × ℝ)}
    (w : String) (h : KeySorted acc) : KeySorted (plusStep s pred acc w) := by
  unfold plusStep
  by_cases hE : (s.word_to_document_freqs w).isEmpty
  · rw [if_pos hE]
    exact h
  · rw [if_neg hE]
    exact keySorted_entryFold s pred _ h

theorem keySorted_plusFold (s : SearchServer)
    (pred : Int → DocumentStatus → Int → Bool) (ws : List String)
    {acc : List (Int × ℝ)} (h : KeySorted acc) :
    KeySorted (ws.foldl (plusStep s pred) acc) := by
  induction ws generalizing acc with
  | nil => exact h
  | cons w rest ih =>
    rw [List.foldl_cons]
    exact ih (keySorted_plusStep s pred w h)

theorem isEmpty_false_of_find?_isSome {α : Type} {m : List (Int × α)} {id : Int}
    (h : (find? m id).isSome) : m.isEmpty = false := by
  cases m with
  | nil => simp [find?] at h
  | cons a rest => rfl

theorem plusStep_of_isEmpty_true {s : SearchServer}
    {pred : Int → DocumentStatus → Int → Bool} {acc : List (Int × ℝ)}
    {w : String} (hE : (s.word_to_document_freqs w).isEmpty = true) :
    plusStep s pred acc w = acc := by
  unfold plusStep
  rw [hE]
  simp

theorem plusStep_of_isEmpty_false {s : SearchServer}
    {pred : Int → DocumentStatus → Int → Bool} {acc : List (Int × ℝ)}
    {w : String} (hE : (s.word_to_document_freqs w).isEmpty = false) :
    plusStep s pred acc w =
      (s.word_to_document_freqs w).foldl
        (entryStep s pred (ComputeWordInverseDocumentFreq s w)) acc := by
  unfold plusStep
  rw [hE]
  simp

theorem minusStep_of_isEmpty_true {s : SearchServer} {acc : List (Int × ℝ)}
    {w : String} (hE : (s.word_to_document_freqs w).isEmpty = true) :
    minusStep s acc w = acc := by
  unfold minusStep
  rw [hE]
  simp

theorem minusStep_of_isEmpty_false {s : SearchServer} {acc : List (Int × ℝ)}
    {w : String} (hE : (s.word_to_document_freqs w).isEmpty = false) :
    minusStep s acc w =
      (s.word_to_document_freqs w).foldl (fun acc2 entry => eraseKey acc2 entry.1)
        acc := by
  unfold minusStep
  rw [hE]
  simp

theorem plusStep_find? (s : SearchServer)
    (pred : Int → DocumentStatus → Int → Bool) (acc : List (Int × ℝ))
    (w : String) (id : Int) (hacc : KeySorted acc)
    (hws : KeySorted (s.word_to_document_freqs w)) :
    find? (plusStep s pred acc w) id =
      if passes s pred id = true ∧ (find? (s.word_to_document_freqs w) id).isSome
      then some ((find? acc id).getD 0 + contrib s w id)
      else find? acc id := by
  cases hw : find? (s.word_to_document_freqs w) id with
  | some tf =>
    have hE : (s.word_to_document_freqs w).isEmpty = false :=
      isEmpty_false_of_find?_isSome (by rw [hw]; rfl)
    rw [plusStep_of_isEmpty_false hE]
    by_cases hp : passes s pred id = true
    · rw [if_pos ⟨hp, rfl⟩, contrib_of_some hw]
      exact entryFold_find?_of_mem s pred _ hws (find?_some_mem hw) hp acc hacc
    · rw [if_neg (fun hc => hp hc.1)]
      refine entryFold_find?_of_not_passes s pred _ acc ?_
      cases hpp : passes s pred id
      · rfl
      · exact absurd hpp hp
  | none =>
    rw [if_neg (fun hc => absurd hc.2 (by simp))]
    cases hE : (s.word_to_document_freqs w).isEmpty with
    | true => rw [plusStep_of_isEmpty_true hE]
    | false =>
      rw [plusStep_of_isEmpty_false hE]
      exact entryFold_find?_of_forall_ne s pred _ acc (find?_eq_none_forall_ne hw)

theorem plusFold_find? (s : SearchServer)
    (pred : Int → DocumentStatus → Int → Bool) (ws : List String)
    (hws : ∀ w, KeySorted (s.word_to_document_freqs w)) (id : Int)
    (acc : List (Int × ℝ)) (hacc : KeySorted acc) :
    find? (ws.foldl (plusStep s pred) acc) id =
      if passes s pred id = true ∧
          ∃ w ∈ ws, (find? (s.word_to_document_freqs w) id).isSome = true
      then some ((find? acc id).getD 0 + relevanceOf s ws id)
      else find? acc id := by
  induction ws generalizing acc with
  | nil =>
    rw [if_neg (fun hc => by rcases hc.2 with ⟨w, hw, _⟩; simp at hw)]
    rfl
  | cons w rest ih =>
    rw [List.foldl_cons, ih _ (keySorted_plusStep s pred w hacc)]
    have hstep := plusStep_find? s pred acc w id hacc (hws w)
    by_cases hp : passes s pred id = true
    · cases hw : find? (s.word_to_document_freqs w) id with
      | some tf =>
        rw [hw] at hstep
        rw [if_pos ⟨hp, rfl⟩] at hstep
        by_cases hrest : ∃ w' ∈ rest,
            (find? (s.word_to_document_freqs w') id).isSome = true
        · rw [if_pos ⟨hp, hrest⟩, hstep,
            if_pos ⟨hp, ⟨w, List.mem_cons_self _ _, by rw [hw]; rfl⟩⟩]
          rw [Option.getD_some, relevanceOf_cons, add_assoc]
        · rw [if_neg (fun hc => hrest hc.2), hstep,
            if_pos ⟨hp, ⟨w, List.mem_cons_self _ _, by rw [hw]; rfl⟩⟩]
          have h0 : relevanceOf s rest id = 0 := by
            refine relevanceOf_eq_zero s ?_
            intro w' hw'
            cases hpp : find? (s.word_to_document_freqs w') id with
            | none => rfl
            | some tf' => exact absurd ⟨w', hw', by rw [hpp]; rfl⟩ hrest
          rw [relevanceOf_cons, h0, add_zero, contrib_of_some hw]
      | none =>
        rw [hw] at hstep
        rw [if_neg (fun hc => absurd hc.2 (by simp))] at hstep
        have hc0 : contrib s w id = 0 := contrib_of_none hw
        by_cases hrest : ∃ w' ∈ rest,
            (find? (s.word_to_document_freqs w') id).isSome = true
        · rcases hrest with ⟨w', hw', hsome⟩
          rw [if_pos ⟨hp, ⟨w', hw', hsome⟩⟩, hstep,
            if_pos ⟨hp, ⟨w', List.mem_cons_of_mem _ hw', hsome⟩⟩,
            relevanceOf_cons, hc0, zero_add]
        · rw [if_neg (fun hc => hrest hc.2), hstep, if_neg ?_]
          rintro ⟨-, w', hw', hsome⟩
          rcases List.mem_cons.mp hw' with rfl | hw''
          · rw [hw] at hsome
            exact absurd hsome (by simp)
          · exact hrest ⟨w', hw'', hsome⟩
    · rw [if_neg (fun hc => hp hc.1), if_neg (fun hc => hp hc.1), hstep,
        if_neg (fun hc => hp hc.1)]

theorem step1_find? (s : SearchServer)
    (pred : Int → DocumentStatus → Int → Bool) (ws : List String)
    (hws : ∀ w, KeySorted (s.word_to_document_freqs w)) (id : Int) :
    find? (ws.foldl (plusStep s pred) []) id =
      if passes s pred id = true ∧
          ∃ w ∈ ws, (find? (s.word_to_document_freqs w) id).isSome = true
      then some (relevanceOf s ws id)
      else none := by
  rw [plusFold_find? s pred ws hws id [] (by simp [KeySorted])]
  by_cases hc : passes s pred id = true ∧
      ∃ w ∈ ws, (find? (s.word_to_document_freqs w) id).isSome = true
  · rw [if_pos hc, if_pos hc]
    have : find? ([] : List (Int × ℝ)) id = none := rfl
    rw [this]
    rw [Option.getD_none, zero_add]
  · rw [if_neg hc, if_neg hc]
    rfl

theorem keySorted_eraseFold {entries : List (Int × ℚ)} {acc : List (Int × ℝ)}
    (h : KeySorted acc) :
    KeySorted (entries.foldl (fun a e => eraseKey a e.1) acc) := by
  induction entries generalizing acc with
  | nil => exact h
  | cons e rest ih =>
    rw [List.foldl_cons]
    exact ih (keySorted_eraseKey _ h)

theorem eraseFold_find?_none {entries : List (Int × ℚ)} (acc : List (Int × ℝ))
    {id : Int} (h : find? acc id = none) :
    find? (entries.foldl (fun a e => eraseKey a e.1) acc) id = none := by
  induction entries generalizing acc with
  | nil => exact h
  | cons e rest ih =>
    rw [List.foldl_cons]
    exact ih _ (find?_eraseKey_none h)

theorem eraseFold_find?_of_mem {entries : List (Int × ℚ)} (acc : List (Int × ℝ))
    {id : Int} (hacc : KeySorted acc) (hmem : ∃ e ∈ entries, e.1 = id) :
    find? (entries.foldl (fun a e => eraseKey a e.1) acc) id = none := by
  induction entries generalizing acc with
  | nil =>
    rcases hmem with ⟨e, he, _⟩
    simp at he
  | cons e rest ih =>
    rw [List.foldl_cons]
    by_cases hk : e.1 = id
    · refine eraseFold_find?_none _ ?_
      rw [hk]
      exact find?_eraseKey_self hacc
    · rcases hmem with ⟨e', he', hk'⟩
      rcases List.mem_cons.mp he' with rfl | he''
      · exact absurd hk' hk
      · exact ih _ (keySorted_eraseKey _ hacc) ⟨e', he'', hk'⟩

theorem eraseFold_find?_of_forall_ne {entries : List (Int × ℚ)}
    (acc : List (Int × ℝ)) {id : Int} (h : ∀ e ∈ entries, e.1 ≠ id) :
    find? (entries.foldl (fun a e => eraseKey a e.1) acc) id = find? acc id := by
  induction entries generalizing acc with
  | nil => rfl
  | cons e rest ih =>
    rw [List.foldl_cons, ih _ (fun e' he' => h e' (List.mem_cons_of_mem _ he')),
      find?_eraseKey_ne (h e (List.mem_cons_self _ _))]

theorem keySorted_minusStep (s : SearchServer) {acc : List (Int × ℝ)}
    (w : String) (h : KeySorted acc) : KeySorted (minusStep s acc w) := by
  cases hE : (s.word_to_document_freqs w).isEmpty with
  | true =>
    rw [minusStep_of_isEmpty_true hE]
    exact h
  | false =>
    rw [minusStep_of_isEmpty_false hE]
    exact keySorted_eraseFold h

theorem keySorted_minusFold (s : SearchServer) (ws : List String)
    {acc : List (Int × ℝ)} (h : KeySorted acc) :
    KeySorted (ws.foldl (minusStep s) acc) := by
  induction ws generalizing acc with
  | nil => exact h
  | cons w rest ih =>
    rw [List.foldl_cons]
    exact ih (keySorted_minusStep s w h)

theorem minusFold_find?_none (s : SearchServer) (ws : List String)
    {acc : List (Int × ℝ)} {id : Int} (h : find? acc id = none) :
    find? (ws.foldl (minusStep s) acc) id = none := by
  induction ws generalizing acc with
  | nil => exact h
  | cons w rest ih =>
    rw [List.foldl_cons]
    refine ih ?_
    cases hE : (s.word_to_document_freqs w).isEmpty with
    | true =>
      rw [minusStep_of_isEmpty_true hE]
      exact h
    | false =>
      rw [minusStep_of_isEmpty_false hE]
      exact eraseFold_find?_none _ h

theorem minusFold_find? (s : SearchServer) (ws : List String)
    (acc : List (Int × ℝ)) (hacc : KeySorted acc) (id : Int) :
    find? (ws.foldl (minusStep s) acc) id =
      if ∃ w ∈ ws, (find? (s.word_to_document_freqs w) id).isSome = true
      then none
      else find? acc id := by
  induction ws generalizing acc with
  | nil =>
    rw [if_neg (fun hc => by rcases hc with ⟨w, hw, _⟩; simp at hw)]
    rfl
  | cons w rest ih =>
    rw [List.foldl_cons]
    cases hw : find? (s.word_to_document_freqs w) id with
    | some tf =>
      have hE : (s.word_to_document_freqs w).isEmpty = false :=
        isEmpty_false_of_find?_isSome (by rw [hw]; rfl)
      rw [if_pos ⟨w, List.mem_cons_self _ _, by rw [hw]; rfl⟩]
      refine minusFold_find?_none s rest ?_
      rw [minusStep_of_isEmpty_false hE]
      exact eraseFold_find?_of_mem _ hacc ⟨(id, tf), find?_some_mem hw, rfl⟩
    | none =>
      have hpres : find? (minusStep s acc w) id = find? acc id := by
        cases hE : (s.word_to_document_freqs w).isEmpty with
        | true => rw [minusStep_of_isEmpty_true hE]
        | false =>
          rw [minusStep_of_isEmpty_false hE]
          exact eraseFold_find?_of_forall_ne _ (find?_eq_none_forall_ne hw)
      rw [ih _ (keySorted_minusStep s w hacc)]
      by_cases hrest : ∃ w' ∈ rest,
          (find? (s.word_to_document_freqs w') id).isSome = true
      · rcases hrest with ⟨w', hw', hsome⟩
        rw [if_pos ⟨w', hw', hsome⟩, if_pos ⟨w', List.mem_cons_of_mem _ hw', hsome⟩]
      · rw [if_neg hrest, hpres, if_neg ?_]
        rintro ⟨w', hw', hsome⟩
        rcases List.mem_cons.mp hw' with rfl | hw''
        · rw [hw] at hsome
          exact absurd hsome (by simp)
        · exact hrest ⟨w', hw'', hsome⟩

/-! ### `FindAllDocuments` and `FindTopDocuments` -/

theorem keySorted_step2 (s : SearchServer) (q : Query)
    (pred : Int → DocumentStatus → Int → Bool) :
    KeySorted (q.minus_words.foldl (minusStep s)
      (q.plus_words.foldl (plusStep s pred) [])) :=
  keySorted_minusFold s _ (keySorted_plusFold s pred _ (List.Pairwise.nil))

theorem findAll_eq_map (s : SearchServer) (q : Query)
    (pred : Int → DocumentStatus → Int → Bool) :
    FindAllDocuments s q pred =
      (q.minus_words.foldl (minusStep s)
        (q.plus_words.foldl (plusStep s pred) [])).map (toDocument s) := rfl

theorem findAll_minus_none (s : SearchServer) (q : Query)
    (pred : Int → DocumentStatus → Int → Bool) {d : Document}
    (hd : d ∈ FindAllDocuments s q pred) :
    ∀ w ∈ q.minus_words, find? (s.word_to_document_freqs w) d.id = none := by
  intro w hw
  rw [findAll_eq_map] at hd
  rcases List.mem_map.mp hd with ⟨e, he, rfl⟩
  have hfind := find?_of_mem_keySorted (keySorted_step2 s q pred) he
  rw [minusFold_find? s _ _ (keySorted_plusFold s pred _ List.Pairwise.nil)] at hfind
  by_cases hex : ∃ w' ∈ q.minus_words,
      (find? (s.word_to_document_freqs w') e.1).isSome = true
  · rw [if_pos hex] at hfind
    exact absurd hfind (by simp)
  · show find? (s.word_to_document_freqs w) e.1 = none
    cases hpp : find? (s.word_to_document_freqs w) e.1 with
    | none => rfl
    | some tf => exact absurd ⟨w, hw, by rw [hpp]; rfl⟩ hex

theorem findAll_step1_some (s : SearchServer) (q : Query)
    (pred : Int → DocumentStatus → Int → Bool) (hws : ∀ w,
      KeySorted (s.word_to_document_freqs w)) {d : Document}
    (hd : d ∈ FindAllDocuments s q pred) :
    passes s pred d.id = true ∧
    (∃ w ∈ q.plus_words, (find? (s.word_to_document_freqs w) d.id).isSome = true) ∧
    d.relevance = relevanceOf s q.plus_words d.id := by
  rw [findAll_eq_map] at hd
  rcases List.mem_map.mp hd with ⟨e, he, rfl⟩
  have hfind := find?_of_mem_keySorted (keySorted_step2 s q pred) he
  rw [minusFold_find? s _ _ (keySorted_plusFold s pred _ List.Pairwise.nil)] at hfind
  by_cases hex : ∃ w' ∈ q.minus_words,
      (find? (s.word_to_document_freqs w') e.1).isSome = true
  · rw [if_pos hex] at hfind
    exact absurd hfind (by simp)
  · rw [if_neg hex, step1_find? s pred _ hws] at hfind
    by_cases hc : passes s pred e.1 = true ∧
        ∃ w ∈ q.plus_words, (find? (s.word_to_document_freqs w) e.1).isSome = true
    · rw [if_pos hc] at hfind
      exact ⟨hc.1, hc.2, (Option.some.inj hfind).symm⟩
    · rw [if_neg hc] at hfind
      exact absurd hfind (by simp)

theorem mem_findAll_of_mem_top {s : SearchServer} {rq : String}
    {pred : Int → DocumentStatus → Int → Bool} {d : Document}
    (hd : d ∈ FindTopDocuments s rq pred) :
    d ∈ FindAllDocuments s (ParseQuery s rq) pred := by
  unfold FindTopDocuments at hd
  exact ((sortCpp_perm docBefore _).mem_iff).mp (List.mem_of_mem_take hd)

/-- C2: no document returned by `FindTopDocuments` has a term-frequency
entry under any minus word of the query, whatever the filter: a minus-matched
document id is excluded from the result unconditionally. -/
theorem c2_minus_word_excludes (s : SearchServer) (rq : String)
    (pred : Int → DocumentStatus → Int → Bool) (d : Document)
    (hd : d ∈ FindTopDocuments s rq pred)
    (w : String) (hw : w ∈ (ParseQuery s rq).minus_words) :
    find? (s.word_to_document_freqs w) d.id = none :=
  findAll_minus_none s (ParseQuery s rq) pred (mem_findAll_of_mem_top hd) w hw

theorem relevanceOf_filter_isSome (s : SearchServer) (ws : List String)
    (id : Int) :
    relevanceOf s ws id =
      relevanceOf s
        (ws.filter (fun w => (find? (s.word_to_document_freqs w) id).isSome))
        id := by
  induction ws with
  | nil => rfl
  | cons w rest ih =>
    rw [relevanceOf_cons]
    cases hw : find? (s.word_to_document_freqs w) id with
    | some tf =>
      rw [List.filter_cons_of_pos (by rw [hw]; rfl), relevanceOf_cons, ih]
    | none =>
      rw [List.filter_cons_of_neg (by rw [hw]; simp), ← ih, contrib_of_none hw,
        zero_add]

/-- C3: the relevance of every returned document is the sum of
`tf * log(documentCount / documentsContainingTerm)` over the plus words of
the query (each absent plus word contributing zero), which equals the same
sum restricted to exactly the plus words holding an entry for the document. -/
theorem c3_relevance_formula (s : SearchServer) (rq : String)
    (pred : Int → DocumentStatus → Int → Bool) (hWF : WF s) (d : Document)
    (hd : d ∈ FindTopDocuments s rq pred) :
    d.relevance = relevanceOf s (ParseQuery s rq).plus_words d.id ∧
    d.relevance =
      relevanceOf s
        ((ParseQuery s rq).plus_words.filter
          (fun w => (find? (s.word_to_document_freqs w) d.id).isSome))
        d.id := by
  have h := (findAll_step1_some s (ParseQuery s rq) pred hWF.1
    (mem_findAll_of_mem_top hd)).2.2
  exact ⟨h, h.trans (relevanceOf_filter_isSome s _ d.id)⟩

/-- C10: the ids of the documents returned by `FindTopDocuments` are pairwise
distinct, and each of them is the id of a document previously added to the
server (it is a key of the metadata map `documents_`). -/
theorem c10_ids_distinct_and_known (s : SearchServer) (rq : String)
    (pred : Int → DocumentStatus → Int → Bool) (hWF : WF s) :
    List.Pairwise (fun a b => a.id ≠ b.id) (FindTopDocuments s rq pred) ∧
    ∀ d ∈ FindTopDocuments s rq pred, (find? s.documents d.id).isSome = true := by
  constructor
  · have hs2 := keySorted_step2 s (ParseQuery s rq) pred
    have hmap : List.Pairwise (fun a b => a.id ≠ b.id)
        (FindAllDocuments s (ParseQuery s rq) pred) := by
      rw [findAll_eq_map]
      exact List.Pairwise.map (toDocument s)
        (fun a b hab => ne_of_lt hab) hs2
    have hperm := sortCpp_perm docBefore (FindAllDocuments s (ParseQuery s rq) pred)
    have hsorted : List.Pairwise (fun a b => a.id ≠ b.id)
        (sortCpp docBefore (FindAllDocuments s (ParseQuery s rq) pred)) :=
      (List.Perm.pairwise_iff (fun hab => Ne.symm hab) hperm).mpr hmap
    exact List.Pairwise.sublist (List.take_sublist _ _) hsorted
  · intro d hd
    have h := (findAll_step1_some s (ParseQuery s rq) pred hWF.1
      (mem_findAll_of_mem_top hd)).2.1
    rcases h with ⟨w, hw, hsome⟩
    rcases Option.isSome_iff_exists.mp hsome with ⟨tf, htf⟩
    exact hWF.2 w (d.id, tf) (find?_some_mem htf)

/-! ### The status filter commutes with the candidate construction (C7) -/

theorem entryStep_acceptAll (s : SearchServer) (idf : ℝ) (acc : List (Int × ℝ))
    (e : Int × ℚ) :
    entryStep s acceptAll idf acc e = addTo acc e.1 ((e.2 : ℝ) * idf) := by
  unfold entryStep acceptAll
  rfl

theorem entryStep_status_filter (s : SearchServer) (status : DocumentStatus)
    (idf : ℝ) {mAll : List (Int × ℝ)} (hAll : KeySorted mAll) (e : Int × ℚ) :
    entryStep s (fun _ doc_status _ => doc_status == status) idf
        (mAll.filter (fun q => statusKey s status q.1)) e =
      (entryStep s acceptAll idf mAll e).filter
        (fun q => statusKey s status q.1) := by
  rw [entryStep_acceptAll,
    filter_addTo (statusKey s status) e.1 ((e.2 : ℝ) * idf) hAll]
  unfold entryStep statusKey
  rfl

theorem entryFold_status_filter (s : SearchServer) (status : DocumentStatus)
    (idf : ℝ) (entries : List (Int × ℚ)) {mAll : List (Int × ℝ)}
    (hAll : KeySorted mAll) :
    entries.foldl (entryStep s (fun _ doc_status _ => doc_status == status) idf)
        (mAll.filter (fun q => statusKey s status q.1)) =
      (entries.foldl (entryStep s acceptAll idf) mAll).filter
        (fun q => statusKey s status q.1) := by
  induction entries generalizing mAll with
  | nil => rfl
  | cons e rest ih =>
    rw [List.foldl_cons, List.foldl_cons, entryStep_status_filter s status idf hAll,
      entryStep_acceptAll]
    exact ih (keySorted_addTo _ _ hAll)

theorem plusStep_status_filter (s : SearchServer) (status : DocumentStatus)
    (w : String) {mAll : List (Int × ℝ)} (hAll : KeySorted mAll) :
    plusStep s (fun _ doc_status _ => doc_status == status)
        (mAll.filter (fun q => statusKey s status q.1)) w =
      (plusStep s acceptAll mAll w).filter (fun q => statusKey s status q.1) := by
  cases hE : (s.word_to_document_freqs w).isEmpty with
  | true => rw [plusStep_of_isEmpty_true hE, plusStep_of_isEmpty_true hE]
  | false =>
    rw [plusStep_of_isEmpty_false hE, plusStep_of_isEmpty_false hE]
    exact entryFold_status_filter s status _ _ hAll

theorem plusFold_status_filter (s : SearchServer) (status : DocumentStatus)
    (ws : List String) {mAll : List (Int × ℝ)} (hAll : KeySorted mAll) :
    ws.foldl (plusStep s (fun _ doc_status _ => doc_status == status))
        (mAll.filter (fun q => statusKey s status q.1)) =
      (ws.foldl (plusStep s acceptAll) mAll).filter
        (fun q => statusKey s status q.1) := by
  induction ws generalizing mAll with
  | nil => rfl
  | cons w rest ih =>
    rw [List.foldl_cons, List.foldl_cons, plusStep_status_filter s status w hAll]
    exact ih (keySorted_plusStep s acceptAll w hAll)

theorem eraseFold_status_filter (s : SearchServer) (status : DocumentStatus)
    (entries : List (Int × ℚ)) {mAll : List (Int × ℝ)} (hAll : KeySorted mAll) :
    entries.foldl (fun a e => eraseKey a e.1)
        (mAll.filter (fun q => statusKey s status q.1)) =
      (entries.foldl (fun a e => eraseKey a e.1) mAll).filter
        (fun q => statusKey s status q.1) := by
  induction entries generalizing mAll with
  | nil => rfl
  | cons e rest ih =>
    rw [List.foldl_cons, List.foldl_cons,
      ← filter_eraseKey (statusKey s status) e.1 hAll]
    exact ih (keySorted_eraseKey _ hAll)

theorem minusStep_status_filter (s : SearchServer) (status : DocumentStatus)
    (w : String) {mAll : List (Int × ℝ)} (hAll : KeySorted mAll) :
    minusStep s (mAll.filter (fun q => statusKey s status q.1)) w =
      (minusStep s mAll w).filter (fun q => statusKey s status q.1) := by
  cases hE : (s.word_to_document_freqs w).isEmpty with
  | true => rw [minusStep_of_isEmpty_true hE, minusStep_of_isEmpty_true hE]
  | false =>
    rw [minusStep_of_isEmpty_false hE, minusStep_of_isEmpty_false hE]
    exact eraseFold_status_filter s status _ hAll

theorem minusFold_status_filter (s : SearchServer) (status : DocumentStatus)
    (ws : List String) {mAll : List (Int × ℝ)} (hAll : KeySorted mAll) :
    ws.foldl (minusStep s) (mAll.filter (fun q => statusKey s status q.1)) =
      (ws.foldl (minusStep s) mAll).filter
        (fun q => statusKey s status q.1) := by
  induction ws generalizing mAll with
  | nil => rfl
  | cons w rest ih =>
    rw [List.foldl_cons, List.foldl_cons, minusStep_status_filter s status w hAll]
    exact ih (keySorted_minusStep s w hAll)

theorem map_toDocument_filter (s : SearchServer) (pb : Int → Bool)
    (l : List (Int × ℝ)) :
    (l.filter (fun q => pb q.1)).map (toDocument s) =
      (l.map (toDocument s)).filter (fun d => pb d.id) := by
  induction l with
  | nil => rfl
  | cons e rest ih =>
    have hid : (toDocument s e).id = e.1 := rfl
    simp only [List.map_cons, List.filter_cons, hid]
    cases hp : pb e.1 with
    | true =>
      simp only [hp]
      rw [if_pos trivial, if_pos trivial, List.map_cons, ih]
    | false =>
      rw [if_neg Bool.false_ne_true, if_neg Bool.false_ne_true, ih]

/-- C7 (amended): already before sorting and truncation, the candidate list
computed by `FindAllDocuments` under the status filter is exactly the
subsequence of the accept-all candidate list consisting of the documents
whose stored status equals the given one, with identical relevances and
order. -/
theorem c7_status_filter_subsequence (s : SearchServer) (rq : String)
    (status : DocumentStatus) :
    FindAllDocuments s (ParseQuery s rq)
        (fun _document_id doc_status _rating => doc_status == status) =
      (FindAllDocuments s (ParseQuery s rq) acceptAll).filter
        (fun d => statusKey s status d.id) := by
  rw [findAll_eq_map, findAll_eq_map]
  have hbase : ([] : List (Int × ℝ)) =
      ([] : List (Int × ℝ)).filter (fun q => statusKey s status q.1) := rfl
  rw [show ((ParseQuery s rq).plus_words.foldl
        (plusStep s (fun _ doc_status _ => doc_status == status)) []) =
      ((ParseQuery s rq).plus_words.foldl (plusStep s acceptAll) []).filter
        (fun q => statusKey s status q.1) from by
    rw [hbase]
    exact plusFold_status_filter s status _ List.Pairwise.nil]
  rw [minusFold_status_filter s status _
    (keySorted_plusFold s acceptAll _ List.Pairwise.nil)]
  exact map_toDocument_filter s (statusKey s status) _

/-! ### `AddDocument` and the server invariant -/

theorem WF_emptyServer : WF emptyServer := by
  constructor
  · intro w
    exact List.Pairwise.nil
  · intro w p hp
    exact absurd hp (List.not_mem_nil p)

theorem WF_setStopWords {s : SearchServer} (h : WF s) (text : String) :
    WF (SetStopWords s text) := h

theorem foldWords_apply (ws : List String) (freqs : String → List (Int × ℚ))
    (id : Int) (inv : ℚ) (w : String) :
    (ws.foldl (fun f word => fun w' =>
        if w' = word then addTo (f word) id inv else f w') freqs) w =
      (fun l => addTo l id inv)^[ws.count w] (freqs w) := by
  induction ws generalizing freqs with
  | nil => rfl
  | cons u rest ih =>
    rw [List.foldl_cons, ih]
    by_cases hw : w = u
    · subst hw
      rw [List.count_cons_self, Function.iterate_succ_apply]
      congr 1
      rw [if_pos rfl]
    · rw [List.count_cons_of_ne hw]
      congr 1
      rw [if_neg hw]

theorem keySorted_iterate_addTo (k : Int) (inv : ℚ) {m : List (Int × ℚ)}
    (hs : KeySorted m) (n : ℕ) :
    KeySorted ((fun l => addTo l k inv)^[n] m) := by
  induction n generalizing m with
  | zero => exact hs
  | succ j ih =>
    rw [Function.iterate_succ_apply]
    exact ih (keySorted_addTo _ _ hs)

theorem find?_iterate_addTo_ne (k : Int) (inv : ℚ) {m : List (Int × ℚ)}
    {id : Int} (h : k ≠ id) (n : ℕ) :
    find? ((fun l => addTo l k inv)^[n] m) id = find? m id := by
  induction n generalizing m with
  | zero => rfl
  | succ j ih =>
    rw [Function.iterate_succ_apply, ih, find?_addTo_ne _ h]

theorem find?_iterate_addTo_some (k : Int) (inv : ℚ) {m : List (Int × ℚ)}
    {v : ℚ} (n : ℕ) (hs : KeySorted m) (hv : find? m k = some v) :
    find? ((fun l => addTo l k inv)^[n] m) k = some (v + n * inv) := by
  induction n generalizing m v with
  | zero =>
    rw [Function.iterate_zero_apply, hv]
    norm_num
  | succ j ih =>
    rw [Function.iterate_succ_apply]
    have h1 : find? (addTo m k inv) k = some (v + inv) := by
      rw [find?_addTo_self _ hs, hv]
      rfl
    rw [ih (keySorted_addTo _ _ hs) h1]
    congr 1
    push_cast
    ring

theorem find?_iterate_addTo_fresh (k : Int) (inv : ℚ) {m : List (Int × ℚ)}
    (hs : KeySorted m) (h0 : find? m k = none) (n : ℕ) :
    find? ((fun l => addTo l k inv)^[n] m) k =
      if n = 0 then none else some ((n : ℚ) * inv) := by
  cases n with
  | zero =>
    rw [if_pos rfl, Function.iterate_zero_apply]
    exact h0
  | succ j =>
    rw [if_neg (Nat.succ_ne_zero j), Function.iterate_succ_apply]
    have h1 : find? (addTo m k inv) k = some inv := by
      rw [find?_addTo_self _ hs, h0]
      norm_num
    rw [find?_iterate_addTo_some k inv j (keySorted_addTo _ _ hs) h1]
    congr 1
    push_cast
    ring

theorem mem_iterate_addTo {k : Int} {inv : ℚ} {m : List (Int × ℚ)}
    {p : Int × ℚ} (n : ℕ) (h : p ∈ (fun l => addTo l k inv)^[n] m) :
    p.1 = k ∨ p ∈ m := by
  induction n generalizing m with
  | zero => exact Or.inr h
  | succ j ih =>
    rw [Function.iterate_succ_apply] at h
    rcases ih h with h' | h'
    · exact Or.inl h'
    · exact mem_addTo h'

theorem addDocument_freqs_apply (s : SearchServer) (document_id : Int)
    (document : String) (status : DocumentStatus) (ratings : List Int)
    (w : String) :
    (AddDocument s document_id document status ratings).word_to_document_freqs w
      = (fun l => addTo l document_id
          (1 / ((SplitIntoWordsNoStop s document).length : ℚ)))^[
            (SplitIntoWordsNoStop s document).count w]
        (s.word_to_document_freqs w) :=
  foldWords_apply (SplitIntoWordsNoStop s document) s.word_to_document_freqs
    document_id _ w

theorem addDocument_documents (s : SearchServer) (document_id : Int)
    (document : String) (status : DocumentStatus) (ratings : List Int) :
    (AddDocument s document_id document status ratings).documents =
      emplace s.documents document_id ⟨ComputeAverageRating ratings, status⟩ := rfl

theorem WF_addDocument {s : SearchServer} (h : WF s) (document_id : Int)
    (document : String) (status : DocumentStatus) (ratings : List Int) :
    WF (AddDocument s document_id document status ratings) := by
  constructor
  · intro w
    rw [addDocument_freqs_apply]
    exact keySorted_iterate_addTo _ _ (h.1 w) _
  · intro w p hp
    rw [addDocument_freqs_apply] at hp
    rw [addDocument_documents]
    rcases mem_iterate_addTo _ hp with h' | h'
    · rw [h']
      exact find?_emplace_self_isSome _ _ _
    · by_cases hk : document_id = p.1
      · rw [← hk]
        exact find?_emplace_self_isSome _ _ _
      · rw [find?_emplace_ne _ hk]
        exact h.2 w p h'

theorem WF_applyOp {s : SearchServer} (h : WF s) (op : Op) : WF (applyOp s op) := by
  cases op with
  | setStop text => exact WF_setStopWords h text
  | add id text status ratings => exact WF_addDocument h id text status ratings

theorem WF_runOps {s : SearchServer} (h : WF s) (ops : List Op) :
    WF (runOps s ops) := by
  induction ops generalizing s with
  | nil => exact h
  | cons op rest ih => exact ih (WF_applyOp h op)

theorem runOps_find?_freqs {id : Int} {ops : List Op}
    (hops : ∀ op ∈ ops, ¬Op.addsId op id) (s : SearchServer) (w : String) :
    find? ((runOps s ops).word_to_document_freqs w) id =
      find? (s.word_to_document_freqs w) id := by
  induction ops generalizing s with
  | nil => rfl
  | cons op rest ih =>
    have hstep : find? ((applyOp s op).word_to_document_freqs w) id =
        find? (s.word_to_document_freqs w) id := by
      cases op with
      | setStop text => rfl
      | add j text status ratings =>
        rw [show applyOp s (Op.add j text status ratings) =
          AddDocument s j text status ratings from rfl, addDocument_freqs_apply]
        exact find?_iterate_addTo_ne _ _ (hops _ (List.mem_cons_self _ _)) _
    rw [show runOps s (op :: rest) = runOps (applyOp s op) rest from rfl,
      ih (fun o ho => hops o (List.mem_cons_of_mem _ ho)) (applyOp s op), hstep]

theorem addDocument_find?_self {s : SearchServer} (hWF : WF s) {id : Int}
    (hfresh : find? s.documents id = none) (document : String)
    (status : DocumentStatus) (ratings : List Int) (w : String) :
    find? ((AddDocument s id document status ratings).word_to_document_freqs w)
        id =
      if (SplitIntoWordsNoStop s document).count w = 0 then none
      else some (((SplitIntoWordsNoStop s document).count w : ℚ) *
        (1 / ((SplitIntoWordsNoStop s document).length : ℚ))) := by
  rw [addDocument_freqs_apply]
  refine find?_iterate_addTo_fresh id _ (hWF.1 w) ?_ _
  cases hpp : find? (s.word_to_document_freqs w) id with
  | none => rfl
  | some tf =>
    have := hWF.2 w (id, tf) (find?_some_mem hpp)
    rw [hfresh] at this
    exact absurd this (by simp)

/-- C4: after adding a document with at least one indexable word (with a
fresh id), the term frequencies stored for it across its distinct words sum
exactly to 1, and this is preserved by every later mutating operation that
does not reuse the id; moreover no other word holds an entry for the
document. -/
theorem c4_tf_sum_one (s : SearchServer) (hWF : WF s) (id : Int)
    (document : String) (status : DocumentStatus) (ratings : List Int)
    (ops : List Op) (hfresh : find? s.documents id = none)
    (hops : ∀ op ∈ ops, ¬Op.addsId op id)
    (hne : SplitIntoWordsNoStop s document ≠ []) :
    tfSum (runOps (AddDocument s id document status ratings) ops)
      (SplitIntoWordsNoStop s document) id = 1 ∧
    ∀ w, w ∉ SplitIntoWordsNoStop s document →
      find? (SearchServer.word_to_document_freqs
        (runOps (AddDocument s id document status ratings) ops) w) id = none := by
  have hpres : ∀ w,
      find? (SearchServer.word_to_document_freqs
        (runOps (AddDocument s id document status ratings) ops) w) id =
      find? (SearchServer.word_to_document_freqs
        (AddDocument s id document status ratings) w) id :=
    fun w => runOps_find?_freqs hops _ w
  constructor
  · unfold tfSum
    have hmap : (SplitIntoWordsNoStop s document).dedup.map
        (fun w => ((find? (SearchServer.word_to_document_freqs
          (runOps (AddDocument s id document status ratings) ops) w) id).getD 0)) =
        (SplitIntoWordsNoStop s document).dedup.map
        (fun w => ((SplitIntoWordsNoStop s document).count w : ℚ) *
          (1 / ((SplitIntoWordsNoStop s document).length : ℚ))) := by
      refine List.map_congr_left ?_
      intro w hw
      rw [hpres w, addDocument_find?_self hWF hfresh document status ratings w]
      have hcount : (SplitIntoWordsNoStop s document).count w ≠ 0 := by
        intro hzero
        exact absurd (List.mem_dedup.mp hw) (List.count_eq_zero.mp hzero)
      rw [if_neg hcount]
      rfl
    rw [hmap, List.sum_map_mul_right]
    have hsumcast : ((SplitIntoWordsNoStop s document).dedup.map
        (fun w => ((SplitIntoWordsNoStop s document).count w : ℚ))).sum =
        (((SplitIntoWordsNoStop s document).length : ℕ) : ℚ) := by
      rw [show (fun w => (((SplitIntoWordsNoStop s document).count w : ℕ) : ℚ)) =
          (fun n : ℕ => (n : ℚ)) ∘ (fun w =>
            (SplitIntoWordsNoStop s document).count w) from rfl,
        ← List.map_map, ← Nat.cast_list_sum, List.sum_map_count_dedup_eq_length]
    rw [hsumcast]
    have hlen : ((SplitIntoWordsNoStop s document).length : ℚ) ≠ 0 := by
      rw [Nat.cast_ne_zero]
      intro h0
      exact hne (List.length_eq_zero.mp h0)
    rw [mul_one_div, div_self hlen]
  · intro w hwnot
    rw [hpres w, addDocument_find?_self hWF hfresh document status ratings w,
      if_pos (List.count_eq_zero.mpr hwnot)]

/-! ### Average rating (C8) and the duplicate-id behaviour (C1) -/

/-- C8: `AddDocument` stores, for a fresh id, the metadata with
`ComputeAverageRating ratings`, which equals 0 on an empty rating list and
otherwise the sum of the ratings divided by their count with C-style
truncation toward zero (`Int.tdiv`); in particular `[8, -3]` yields 2 and
`[-3, 0]` yields -1 (where floor division would give -2). -/
theorem c8_average_rating (s : SearchServer) (id : Int) (document : String)
    (status : DocumentStatus) (ratings : List Int)
    (hfresh : find? s.documents id = none) :
    find? (AddDocument s id document status ratings).documents id =
      some ⟨ComputeAverageRating ratings, status⟩ ∧
    (ratings = [] → ComputeAverageRating ratings = 0) ∧
    (ratings ≠ [] →
      ComputeAverageRating ratings = Int.tdiv ratings.sum ratings.length) ∧
    ComputeAverageRating [8, -3] = 2 ∧
    ComputeAverageRating [-3, 0] = -1 := by
  refine ⟨?_, ?_, ?_, by decide, by decide⟩
  · rw [addDocument_documents]
    exact find?_emplace_self_of_none _ hfresh
  · intro h
    rw [ComputeAverageRating, if_pos h]
  · intro h
    rw [ComputeAverageRating, if_neg h, List.foldl_eq_foldr, ← List.sum]

/-- C1 (behaviour of the code on a duplicate id): a second `AddDocument` with
an already used id is not rejected; it silently mutates the index — the term
frequency stored for document 0 under word `a` doubles to 2 — while the
metadata keeps the first call's rating and the document count stays 1. -/
theorem c1_duplicate_add_not_rejected :
    find? (SearchServer.word_to_document_freqs
      (AddDocument (AddDocument emptyServer 0 "a" DocumentStatus.ACTUAL [5])
        0 "a" DocumentStatus.ACTUAL [7]) "a") 0 = some 2 ∧
    find? (AddDocument (AddDocument emptyServer 0 "a" DocumentStatus.ACTUAL [5])
        0 "a" DocumentStatus.ACTUAL [7]).documents 0 =
      some ⟨5, DocumentStatus.ACTUAL⟩ ∧
    GetDocumentCount (AddDocument (AddDocument emptyServer 0 "a"
      DocumentStatus.ACTUAL [5]) 0 "a" DocumentStatus.ACTUAL [7]) = 1 ∧
    find? (SearchServer.word_to_document_freqs
      (AddDocument emptyServer 0 "a" DocumentStatus.ACTUAL [5]) "a") 0 =
      some 1 := by
  refine ⟨?_, by decide, by decide, ?_⟩
  · have h : find? (SearchServer.word_to_document_freqs
        (AddDocument (AddDocument emptyServer 0 "a" DocumentStatus.ACTUAL [5])
          0 "a" DocumentStatus.ACTUAL [7]) "a") 0 =
        some (1 / ((1 : ℕ) : ℚ) + 1 / ((1 : ℕ) : ℚ)) := rfl
    rw [h]
    norm_num
  · have h : find? (SearchServer.word_to_document_freqs
        (AddDocument emptyServer 0 "a" DocumentStatus.ACTUAL [5]) "a") 0 =
        some (1 / ((1 : ℕ) : ℚ)) := rfl
    rw [h]
    norm_num

/-! ### `MatchDocument` (C9) -/

theorem matchFold_mem (s : SearchServer) (id : Int) (ws : List String)
    (acc : List String) (w : String) :
    w ∈ ws.foldl (fun acc word =>
        if (s.word_to_document_freqs word).isEmpty then acc
        else if (find? (s.word_to_document_freqs word) id).isSome then
          acc ++ [word]
        else acc) acc ↔
      w ∈ acc ∨ (w ∈ ws ∧ (find? (s.word_to_document_freqs w) id).isSome = true) := by
  induction ws generalizing acc with
  | nil =>
    rw [List.foldl_nil]
    constructor
    · exact fun h => Or.inl h
    · rintro (h | ⟨h, -⟩)
      · exact h
      · exact absurd h (List.not_mem_nil w)
  | cons u rest ih =>
    rw [List.foldl_cons]
    cases hu : find? (s.word_to_document_freqs u) id with
    | some tf =>
      have hE : (s.word_to_document_freqs u).isEmpty = false :=
        isEmpty_false_of_find?_isSome (by rw [hu]; rfl)
      rw [show (if (s.word_to_document_freqs u).isEmpty then acc
          else if (some tf).isSome then acc ++ [u]
          else acc) = acc ++ [u] from by
        rw [hE]
        simp]
      rw [ih, List.mem_append, List.mem_singleton, List.mem_cons]
      constructor
      · rintro ((h | rfl) | ⟨h1, h2⟩)
        · exact Or.inl h
        · exact Or.inr ⟨Or.inl rfl, by rw [hu]; rfl⟩
        · exact Or.inr ⟨Or.inr h1, h2⟩
      · rintro (h | ⟨rfl | h1, h2⟩)
        · exact Or.inl (Or.inl h)
        · exact Or.inl (Or.inr rfl)
        · exact Or.inr ⟨h1, h2⟩
    | none =>
      rw [show (if (s.word_to_document_freqs u).isEmpty then acc
          else if (none : Option ℚ).isSome then acc ++ [u]
          else acc) = acc from by
        cases hE : (s.word_to_document_freqs u).isEmpty
        · simp
        · simp]
      rw [ih, List.mem_cons]
      constructor
      · rintro (h | ⟨h1, h2⟩)
        · exact Or.inl h
        · exact Or.inr ⟨Or.inr h1, h2⟩
      · rintro (h | ⟨rfl | h1, h2⟩)
        · exact Or.inl h
        · rw [hu] at h2
          exact absurd h2 (by simp)
        · exact Or.inr ⟨h1, h2⟩

theorem minusAny_iff (s : SearchServer) (id : Int) (ws : List String) :
    (ws.any (fun word => !(s.word_to_document_freqs word).isEmpty &&
        (find? (s.word_to_document_freqs word) id).isSome)) = true ↔
      ∃ w ∈ ws, (find? (s.word_to_document_freqs w) id).isSome = true := by
  rw [List.any_eq_true]
  constructor
  · rintro ⟨w, hw, hb⟩
    rw [Bool.and_eq_true] at hb
    exact ⟨w, hw, hb.2⟩
  · rintro ⟨w, hw, hsome⟩
    refine ⟨w, hw, ?_⟩
    rw [Bool.and_eq_true]
    refine ⟨?_, hsome⟩
    rw [isEmpty_false_of_find?_isSome hsome]
    rfl

theorem matchDocument_some {s : SearchServer} {rq : String} {id : Int}
    {dd : DocumentData} (h : find? s.documents id = some dd) :
    MatchDocument s rq id = some
      (if ((ParseQuery s rq).minus_words.any (fun word =>
            !(s.word_to_document_freqs word).isEmpty &&
              (find? (s.word_to_document_freqs word) id).isSome)) = true
        then []
        else (ParseQuery s rq).plus_words.foldl (fun acc word =>
          if (s.word_to_document_freqs word).isEmpty then acc
          else if (find? (s.word_to_document_freqs word) id).isSome then
            acc ++ [word]
          else acc) [],
        dd.status) := by
  unfold MatchDocument
  rw [h]

/-- C9: `MatchDocument` fails (the thrown `out_of_range` of `documents_.at`,
modelled as `none`) exactly when the id was never added; otherwise it returns
the document's status together with the plus words holding an entry for the
id, except that the word list is empty whenever some minus word holds an
entry for the id — which is not an error. -/
theorem c9_match_document (s : SearchServer) (rq : String) (id : Int) :
    (find? s.documents id = none → MatchDocument s rq id = none) ∧
    ∀ dd, find? s.documents id = some dd →
      ((∃ w ∈ (ParseQuery s rq).minus_words,
          (find? (s.word_to_document_freqs w) id).isSome = true) →
        MatchDocument s rq id = some ([], dd.status)) ∧
      ((¬∃ w ∈ (ParseQuery s rq).minus_words,
          (find? (s.word_to_document_freqs w) id).isSome = true) →
        ∃ mw, MatchDocument s rq id = some (mw, dd.status) ∧
          ∀ w, w ∈ mw ↔ w ∈ (ParseQuery s rq).plus_words ∧
            (find? (s.word_to_document_freqs w) id).isSome = true) := by
  constructor
  · intro h
    unfold MatchDocument
    rw [h]
  · intro dd h
    constructor
    · intro hex
      rw [matchDocument_some h, if_pos ((minusAny_iff s id _).mpr hex)]
    · intro hex
      rw [matchDocument_some h, if_neg (fun hc => hex ((minusAny_iff s id _).mp hc))]
      refine ⟨_, rfl, ?_⟩
      intro w
      rw [matchFold_mem s id _ [] w]
      constructor
      · rintro (h' | h')
        · exact absurd h' (List.not_mem_nil w)
        · exact h'
      · exact fun h' => Or.inr h'

/-! ### Concrete evaluations on the example corpora -/

theorem WF_ex1 : WF ex1 :=
  WF_addDocument WF_emptyServer 0 "a" DocumentStatus.ACTUAL []

theorem ex1_top_eval : FindTopDocuments ex1 "a -b" acceptAll =
    [⟨0, ((1 / ((1 : ℕ) : ℚ) : ℚ) : ℝ) *
      Real.log (((1 : ℕ) : ℝ) / ((1 : ℕ) : ℝ)), 0⟩] := rfl

theorem ex1_top_clean : FindTopDocuments ex1 "a -b" acceptAll =
    [⟨0, 0, 0⟩] := by
  rw [ex1_top_eval]
  norm_num [Real.log_one]

/-- C2 witness at a concrete corpus: the single returned document holds no
entry under the minus word `b`. -/
theorem c2_witness :
    (⟨0, 0, 0⟩ : Document) ∈ FindTopDocuments ex1 "a -b" acceptAll ∧
    find? (ex1.word_to_document_freqs "b") (0 : Int) = none := by
  have hmem : (⟨0, 0, 0⟩ : Document) ∈ FindTopDocuments ex1 "a -b" acceptAll := by
    rw [ex1_top_clean]
    exact List.mem_singleton.mpr rfl
  exact ⟨hmem,
    c2_minus_word_excludes ex1 "a -b" acceptAll ⟨0, 0, 0⟩ hmem "b" (by decide)⟩

/-- C3 witness at a concrete corpus. -/
theorem c3_witness :
    (⟨0, 0, 0⟩ : Document) ∈ FindTopDocuments ex1 "a -b" acceptAll ∧
    (⟨0, 0, 0⟩ : Document).relevance =
      relevanceOf ex1 (ParseQuery ex1 "a -b").plus_words
        (⟨0, 0, 0⟩ : Document).id := by
  have hmem : (⟨0, 0, 0⟩ : Document) ∈ FindTopDocuments ex1 "a -b" acceptAll := by
    rw [ex1_top_clean]
    exact List.mem_singleton.mpr rfl
  exact ⟨hmem,
    (c3_relevance_formula ex1 "a -b" acceptAll WF_ex1 ⟨0, 0, 0⟩ hmem).1⟩

/-- C10 witness at a concrete corpus. -/
theorem c10_witness :
    List.Pairwise (fun a b => a.id ≠ b.id)
      (FindTopDocuments ex1 "a -b" acceptAll) ∧
    ∀ d ∈ FindTopDocuments ex1 "a -b" acceptAll,
      (find? ex1.documents d.id).isSome = true :=
  c10_ids_distinct_and_known ex1 "a -b" acceptAll WF_ex1

/-- C4 witness: adding `"a b a"` to an empty server and then a second
document gives term frequencies for document 0 summing to 1, and an
unrelated word stores nothing for it. -/
theorem c4_witness :
    tfSum (runOps (AddDocument emptyServer 0 "a b a" DocumentStatus.ACTUAL [])
        [Op.add 1 "c" DocumentStatus.ACTUAL []])
      (SplitIntoWordsNoStop emptyServer "a b a") 0 = 1 ∧
    find? (SearchServer.word_to_document_freqs
      (runOps (AddDocument emptyServer 0 "a b a" DocumentStatus.ACTUAL [])
        [Op.add 1 "c" DocumentStatus.ACTUAL []]) "z") 0 = none := by
  have h := c4_tf_sum_one emptyServer WF_emptyServer 0 "a b a"
    DocumentStatus.ACTUAL [] [Op.add 1 "c" DocumentStatus.ACTUAL []] rfl
    (by
      intro op hop
      rw [List.mem_singleton] at hop
      subst hop
      exact fun hc => absurd (show (1 : Int) = 0 from hc) (by decide))
    (by decide)
  exact ⟨h.1, h.2 "z" (by decide)⟩

/-- C8 witness: the ratings `[8, -3]` produce a stored average rating of 2. -/
theorem c8_witness :
    find? (AddDocument emptyServer 0 "a" DocumentStatus.ACTUAL
      [8, -3]).documents 0 =
      some ⟨ComputeAverageRating [8, -3], DocumentStatus.ACTUAL⟩ ∧
    ComputeAverageRating [8, -3] = 2 ∧
    ComputeAverageRating [8, -3] =
      Int.tdiv ([8, -3] : List Int).sum ([8, -3] : List Int).length := by
  have h := c8_average_rating emptyServer 0 "a" DocumentStatus.ACTUAL
    [8, -3] rfl
  exact ⟨h.1, h.2.2.2.1, h.2.2.1 (by decide)⟩

/-- C9 witness: an unknown id yields `none`; a minus-matched document yields
an empty match list with its status. -/
theorem c9_witness :
    MatchDocument ex9 "a" 99 = none ∧
    MatchDocument ex9 "x -a" 0 = some ([], DocumentStatus.ACTUAL) := by
  have h1 := (c9_match_document ex9 "a" 99).1 (by decide)
  have h2 := ((c9_match_document ex9 "x -a" 0).2 ⟨1, DocumentStatus.ACTUAL⟩
    (by decide)).1 ⟨"a", by decide, by decide⟩
  exact ⟨h1, h2⟩

/-! ### The C7 counterexample evaluation -/

theorem ex7_status_eval :
    FindTopDocumentsWithStatus ex7 "a" DocumentStatus.BANNED =
      [⟨5, ((1 / ((1 : ℕ) : ℚ) : ℚ) : ℝ) *
        Real.log (((6 : ℕ) : ℝ) / ((6 : ℕ) : ℝ)), 5⟩] := rfl

theorem ex7_z_zero : ((1 / ((1 : ℕ) : ℚ) : ℚ) : ℝ) *
    Real.log (((6 : ℕ) : ℝ) / ((6 : ℕ) : ℝ)) = 0 := by
  rw [show ((6 : ℕ) : ℝ) / ((6 : ℕ) : ℝ) = 1 from by norm_num, Real.log_one,
    mul_zero]

theorem ex7_status_clean :
    FindTopDocumentsWithStatus ex7 "a" DocumentStatus.BANNED =
      [⟨5, 0, 5⟩] := by
  rw [ex7_status_eval, ex7_z_zero]

theorem ex7_findAll_eval :
    FindAllDocuments ex7 (ParseQuery ex7 "a") acceptAll =
      [⟨0, ((1 / ((1 : ℕ) : ℚ) : ℚ) : ℝ) *
          Real.log (((6 : ℕ) : ℝ) / ((6 : ℕ) : ℝ)), 10⟩,
        ⟨1, ((1 / ((1 : ℕ) : ℚ) : ℚ) : ℝ) *
          Real.log (((6 : ℕ) : ℝ) / ((6 : ℕ) : ℝ)), 9⟩,
        ⟨2, ((1 / ((1 : ℕ) : ℚ) : ℚ) : ℝ) *
          Real.log (((6 : ℕ) : ℝ) / ((6 : ℕ) : ℝ)), 8⟩,
        ⟨3, ((1 / ((1 : ℕ) : ℚ) : ℚ) : ℝ) *
          Real.log (((6 : ℕ) : ℝ) / ((6 : ℕ) : ℝ)), 7⟩,
        ⟨4, ((1 / ((1 : ℕ) : ℚ) : ℚ) : ℝ) *
          Real.log (((6 : ℕ) : ℝ) / ((6 : ℕ) : ℝ)), 6⟩,
        ⟨5, ((1 / ((1 : ℕ) : ℚ) : ℚ) : ℝ) *
          Real.log (((6 : ℕ) : ℝ) / ((6 : ℕ) : ℝ)), 5⟩] := rfl

theorem ex7_findAll_clean :
    FindAllDocuments ex7 (ParseQuery ex7 "a") acceptAll =
      [⟨0, 0, 10⟩, ⟨1, 0, 9⟩, ⟨2, 0, 8⟩, ⟨3, 0, 7⟩, ⟨4, 0, 6⟩, ⟨5, 0, 5⟩] := by
  rw [ex7_findAll_eval, ex7_z_zero]

theorem docBefore_zero_rating {i j ri rj : Int} (h : ri > rj) :
    docBefore ⟨i, 0, ri⟩ ⟨j, 0, rj⟩ := by
  unfold docBefore
  rw [if_pos (by rw [sub_self, abs_zero]; exact errorRate_pos)]
  exact h

theorem ex7_sort_eval :
    sortCpp docBefore
      [⟨0, 0, 10⟩, ⟨1, 0, 9⟩, ⟨2, 0, 8⟩, ⟨3, 0, 7⟩, ⟨4, 0, 6⟩, ⟨5, 0, 5⟩] =
    ([⟨0, 0, 10⟩, ⟨1, 0, 9⟩, ⟨2, 0, 8⟩, ⟨3, 0, 7⟩, ⟨4, 0, 6⟩, ⟨5, 0, 5⟩] :
      List Document) := by
  have e5 : insertSorted docBefore (⟨5, 0, 5⟩ : Document) [] = [⟨5, 0, 5⟩] := rfl
  have e4 : insertSorted docBefore (⟨4, 0, 6⟩ : Document) [⟨5, 0, 5⟩] =
      [⟨4, 0, 6⟩, ⟨5, 0, 5⟩] := by
    rw [insertSorted, if_pos (docBefore_zero_rating (by norm_num))]
  have e3 : insertSorted docBefore (⟨3, 0, 7⟩ : Document)
      [⟨4, 0, 6⟩, ⟨5, 0, 5⟩] = [⟨3, 0, 7⟩, ⟨4, 0, 6⟩, ⟨5, 0, 5⟩] := by
    rw [insertSorted, if_pos (docBefore_zero_rating (by norm_num))]
  have e2 : insertSorted docBefore (⟨2, 0, 8⟩ : Document)
      [⟨3, 0, 7⟩, ⟨4, 0, 6⟩, ⟨5, 0, 5⟩] =
      [⟨2, 0, 8⟩, ⟨3, 0, 7⟩, ⟨4, 0, 6⟩, ⟨5, 0, 5⟩] := by
    rw [insertSorted, if_pos (docBefore_zero_rating (by norm_num))]
  have e1 : insertSorted docBefore (⟨1, 0, 9⟩ : Document)
      [⟨2, 0, 8⟩, ⟨3, 0, 7⟩, ⟨4, 0, 6⟩, ⟨5, 0, 5⟩] =
      [⟨1, 0, 9⟩, ⟨2, 0, 8⟩, ⟨3, 0, 7⟩, ⟨4, 0, 6⟩, ⟨5, 0, 5⟩] := by
    rw [insertSorted, if_pos (docBefore_zero_rating (by norm_num))]
  have e0 : insertSorted docBefore (⟨0, 0, 10⟩ : Document)
      [⟨1, 0, 9⟩, ⟨2, 0, 8⟩, ⟨3, 0, 7⟩, ⟨4, 0, 6⟩, ⟨5, 0, 5⟩] =
      [⟨0, 0, 10⟩, ⟨1, 0, 9⟩, ⟨2, 0, 8⟩, ⟨3, 0, 7⟩, ⟨4, 0, 6⟩, ⟨5, 0, 5⟩] := by
    rw [insertSorted, if_pos (docBefore_zero_rating (by norm_num))]
  simp only [sortCpp]
  rw [e5, e4, e3, e2, e1, e0]

theorem ex7_top_eval : FindTopDocuments ex7 "a" acceptAll =
    [⟨0, 0, 10⟩, ⟨1, 0, 9⟩, ⟨2, 0, 8⟩, ⟨3, 0, 7⟩, ⟨4, 0, 6⟩] := by
  show (sortCpp docBefore
    (FindAllDocuments ex7 (ParseQuery ex7 "a") acceptAll)).take
      MAX_RESULT_DOCUMENT_COUNT = _
  rw [ex7_findAll_clean, ex7_sort_eval]
  rfl

/-- C7 counterexample: on a six-document corpus where five `ACTUAL`
documents outrank one `BANNED` document, the `BANNED`-filtered result
contains document 5, which does not appear in the accept-all top-5 ranking
at all — so the status-filtered result list is not a subsequence of the
unfiltered (accept-all) ranking. -/
theorem c7_counterexample :
    (⟨5, 0, 5⟩ : Document) ∈
      FindTopDocumentsWithStatus ex7 "a" DocumentStatus.BANNED ∧
    (∀ d ∈ FindTopDocuments ex7 "a" acceptAll, d.id ≠ 5) ∧
    ¬ List.Sublist (FindTopDocumentsWithStatus ex7 "a" DocumentStatus.BANNED)
        (FindTopDocuments ex7 "a" acceptAll) := by
  have hmem : (⟨5, 0, 5⟩ : Document) ∈
      FindTopDocumentsWithStatus ex7 "a" DocumentStatus.BANNED := by
    rw [ex7_status_clean]
    exact List.mem_singleton.mpr rfl
  have hnot : ∀ d ∈ FindTopDocuments ex7 "a" acceptAll, d.id ≠ 5 := by
    intro d hd
    rw [ex7_top_eval] at hd
    simp only [List.mem_cons, List.not_mem_nil, or_false] at hd
    rcases hd with rfl | rfl | rfl | rfl | rfl
    · decide
    · decide
    · decide
    · decide
    · decide
  refine ⟨hmem, hnot, ?_⟩
  intro hsub
  exact hnot _ (hsub.subset hmem) rfl

end CppSearchServer
